import Mathlib

/-!
Verification of the Str8ts core engine (constraint groups, validator,
candidate engine, backtracking solver, persistence checks) against its
natural-language specification.  The definitions below are shallow
embeddings of the corresponding Rust functions; cell vectors become
`List Cell`, the `VecOrVecModel` get/set capability becomes `getCell` /
`List.set`, machine integers become `Int`/`Nat`, and panicking accesses
are modelled with `Option` or defaults on branches proved unreachable.
-/

namespace Str8ts

/-- The cell data (`Cell` in the generated UI code): its value (-1 = empty,
else a digit), its color (`is_white`), its fixed flag and the pencil-mark
booleans (`small_values`).  Position and the display-only flags
(`is_editing`, validity flags) play no role in the claims and are omitted. -/
structure Cell where
  value : Int
  is_white : Bool
  is_fixed : Bool
  small_values : List Bool
deriving DecidableEq

instance : Inhabited Cell := ⟨⟨-1, false, false, []⟩⟩

/-- `VecOrVecModel::get`: indexed read of a cell (`vec[index]`).  Out-of-range
reads panic in the source; they are totalised with the default cell and occur
in no theorem below. -/
def getCell (all_cells : List Cell) (i : Nat) : Cell :=
  all_cells.getD i default

/-- Rust `slice::split(p)`: splits a list at every element satisfying `p`,
dropping the separators and keeping (possibly empty) chunks between them. -/
def splitP (p : α → Bool) : List α → List (List α)
  | [] => [[]]
  | a :: t =>
    if p a then [] :: splitP p t
    else
      match splitP p t with
      | s :: ss => (a :: s) :: ss
      | [] => [[a]]

/-- `Row`: a row/column group, its 9 cell indices and its straights
(stored as index vectors). -/
structure Row where
  row_cells : List Nat
  straights : List (List Nat)

instance : Inhabited Row := ⟨⟨[], []⟩⟩

/-- `Row::new`: recognize the straights of a group as the nonempty maximal
runs of white cells (the source pairs each index with its color, splits on
black cells and drops empty chunks; the pairing is inlined here). -/
def Row.new (row_cells : List Nat) (all_cells : List Cell) : Row :=
  { row_cells := row_cells
    straights :=
      (splitP (fun i => !(getCell all_cells i).is_white) row_cells).filter
        (fun s => decide (0 < s.length)) }

/-- The values of the non-empty cells among the given indices
(`indices.iter().map(|&i| all_cells.get(i).value).filter(|&v| v > 0)`),
shared by `validate` and `possible_straight_values_cells`. -/
def filledValues (indices : List Nat) (all_cells : List Cell) : List Int :=
  (indices.map (fun i => (getCell all_cells i).value)).filter (fun v => decide (0 < v))

/-- The `multiple_occurrences` local of `Row::validate`: per digit 1..9 the
indices of the cells holding it (the source's `occurrences` array, whose
indexing panics for values above 9 — hence the value bound carried by the
theorems), keeping the digits occurring more than once. -/
def Row.multiple_occurrences (R : Row) (all_cells : List Cell) : List (List Nat) :=
  ((List.range 9).map (fun (k : Nat) =>
    R.row_cells.filter (fun i => (getCell all_cells i).value == ((k : Int) + 1)))).filter
    (fun l => decide (1 < l.length))

/-- The `straights_values` local of `Row::validate`: each straight's filled
values, enumerated, keeping the straights with at least one filled cell. -/
def Row.straights_values (R : Row) (all_cells : List Cell) : List (Nat × List Int) :=
  ((R.straights.map (fun straight => filledValues straight all_cells)).enum).filter
    (fun kv => decide (0 < kv.2.length))

/-- The `invalid_straights` local of `Row::validate`: the index sets of the
straights whose filled values have min and max too far apart. -/
def Row.invalid_straights (R : Row) (all_cells : List Cell) : List (List Nat) :=
  ((R.straights_values all_cells).filter (fun kv =>
    decide ((R.straights.getD kv.1 []).length ≤
      ((kv.2.max?.getD 0) - (kv.2.min?.getD 0)).toNat))).map
    (fun kv => R.straights.getD kv.1 [])

/-- `Row::validate`: find duplicate values and invalid straights; `none`
means no violation. -/
def Row.validate (R : Row) (all_cells : List Cell) :
    Option (List (List Nat) × List (List Nat)) :=
  if 0 < (R.multiple_occurrences all_cells).length ∨
      0 < (R.invalid_straights all_cells).length then
    some (R.multiple_occurrences all_cells, R.invalid_straights all_cells)
  else
    none

/-- `Row::missing_values_cells`: the values not yet present in the group,
intersected with `candidate_values` if provided.  The two boolean arrays of
the source become boolean-valued functions; the candidate array write
`candidate_values_present[(val - 1) as usize] = true` panics for candidates
outside 1..9, and every call site below feeds candidates within that range. -/
def Row.missing_values_cells (R : Row) (candidate_values : Option (List Int))
    (all_cells : List Cell) : List Int :=
  let values_present : Nat → Bool := fun k =>
    R.row_cells.any (fun i => (getCell all_cells i).value == ((k : Int) + 1))
  let candidate_values_present : Nat → Bool := fun k =>
    match candidate_values with
    | some values => values.contains ((k : Int) + 1)
    | none => false
  ((List.range 9).filter (fun k =>
    !values_present k && (candidate_values_present k || candidate_values.isNone))).map
    (fun (k : Nat) => (k : Int) + 1)

/-- The straight of the group containing the given cell index
(`straights.iter().find(|s| s.contains(&cell_index))`). -/
def Row.straight_of (R : Row) (cell_index : Nat) : Option (List Nat) :=
  R.straights.find? (fun s => s.contains cell_index)

/-- `Row::possible_straight_values_cells`: the candidate values that do not
violate the straight rule for the straight containing `cell_index`.  The
source panics ("Cell not in any straight.") when no straight contains the
index; that branch is totalised with the empty straight (which imposes no
restriction) and proved unreachable from `compute_possible_values`. -/
def Row.possible_straight_values_cells (R : Row) (cell_index : Nat)
    (candidate_values : List Int) (all_cells : List Cell) : List Int :=
  let straight_indices := (R.straight_of cell_index).getD []
  let straight := filledValues straight_indices all_cells
  match straight.min?, straight.max? with
  | some mn, some mx =>
    let len : Int := straight_indices.length
    candidate_values.filter (fun v =>
      (mn < v && v < mx) || (v < mn && mx - v < len) || (mx < v && v - mn < len))
  | _, _ => candidate_values

/-- The cell indices of row `r` of the board, in order. -/
def rowIndices (r : Nat) : List Nat :=
  (List.range 9).map (fun j => 9 * r + j)

/-- The cell indices of column `c` of the board, in order. -/
def colIndices (c : Nat) : List Nat :=
  (List.range 9).map (fun j => c + 9 * j)

/-- `compute_rows_columns`: the 18 constraint groups (9 rows then 9 columns). -/
def compute_rows_columns (cells : List Cell) : List Row :=
  (List.range 9).map (fun row => Row.new (rowIndices row) cells) ++
  (List.range 9).map (fun column => Row.new (colIndices column) cells)

/-- `compute_possible_values`: the currently possible values of a cell — the
values missing from its row, intersected with those missing from its column,
and, for a white cell, filtered through the straight rule of its row straight
and then of its column straight. -/
def compute_possible_values (cell_index : Nat) (all_cells : List Cell)
    (rows_columns : List Row) : List Int :=
  let possible_values :=
    (rows_columns.getD (cell_index / 9) default).missing_values_cells none all_cells
  let possible_values :=
    (rows_columns.getD (9 + cell_index % 9) default).missing_values_cells
      (some possible_values) all_cells
  if (getCell all_cells cell_index).is_white then
    let possible_values :=
      (rows_columns.getD (cell_index / 9) default).possible_straight_values_cells
        cell_index possible_values all_cells
    (rows_columns.getD (9 + cell_index % 9) default).possible_straight_values_cells
      cell_index possible_values all_cells
  else
    possible_values

/-- `Str8tsSolution`: whether the game has no/one/multiple solutions
(carrying one solution in the latter cases). -/
inductive Str8tsSolution where
  | None : Str8tsSolution
  | Unique : List Cell → Str8tsSolution
  | Multiple : List Cell → Str8tsSolution
deriving DecidableEq

/-- The mutable state of `solve_backtrack`: the working copy of the cells,
the two backtracking stacks, the forward pointer `i` and the recorded
solutions. -/
structure SolverState where
  cells : List Cell
  possible_values_stack : List (List Int)
  indices_stack : List Nat
  i : Nat
  found_solutions : List (List Cell)
deriving DecidableEq

/-- One loop turn either continues with a new state or finishes with the
solver's result. -/
inductive StepResult where
  | running : SolverState → StepResult
  | finished : Str8tsSolution → StepResult
deriving DecidableEq

/-- The final `match found_solutions.len()` of `solve_backtrack`.  The source
panics for three or more solutions; the loop guard keeps the count at most
two, so that arm carries the two-solution meaning here. -/
def resultOf (found_solutions : List (List Cell)) : Str8tsSolution :=
  match found_solutions with
  | [] => Str8tsSolution.None
  | [w] => Str8tsSolution.Unique w
  | w :: _ :: _ => Str8tsSolution.Multiple w

/-- Push a candidate frame (and a fresh cursor) onto the backtracking
stacks. -/
def pushFrame (s : SolverState) (frame : List Int) : SolverState :=
  { s with
    possible_values_stack := s.possible_values_stack ++ [frame]
    indices_stack := s.indices_stack ++ [0] }

/-- The cursor check of the inner loop, acting on the state `s₁` whose top
frame is the frame of cell `i`: if candidates remain, assign the next one
and advance; otherwise pop the frame (`possible_values_stack.pop()`), clear
the cell when the popped frame was non-empty, and step back — breaking the
loops at index 0. -/
def solveAssignOrPop (s₁ : SolverState) (i : Nat) : StepResult :=
  if s₁.indices_stack.getD i 0 < (s₁.possible_values_stack.getD i []).length then
    StepResult.running { s₁ with
      cells := s₁.cells.set i
        { getCell s₁.cells i with
          value := (s₁.possible_values_stack.getD i []).getD
            (s₁.indices_stack.getD i 0) 0 }
      indices_stack := s₁.indices_stack.set i (s₁.indices_stack.getD i 0 + 1)
      i := i + 1 }
  else
    if 0 < (s₁.possible_values_stack.getLast?.getD []).length then
      if 0 < i then
        StepResult.running { s₁ with
          cells := s₁.cells.set i { getCell s₁.cells i with value := -1 }
          possible_values_stack := s₁.possible_values_stack.dropLast
          indices_stack := s₁.indices_stack.dropLast
          i := i - 1 }
      else
        StepResult.finished (resultOf s₁.found_solutions)
    else
      if 0 < i then
        StepResult.running { s₁ with
          possible_values_stack := s₁.possible_values_stack.dropLast
          indices_stack := s₁.indices_stack.dropLast
          i := i - 1 }
      else
        StepResult.finished (resultOf s₁.found_solutions)

/-- One iteration of the loops of `solve_backtrack`: the outer guard
(`found_solutions.len() < 2`), then one inner-loop body when `i` is inside
the board (skip-push for black/filled cells, candidate computation and push,
then the cursor check), and otherwise the solution-recording step of the
outer loop. -/
def solveStep (rows_columns : List Row) (s : SolverState) : StepResult :=
  if 2 ≤ s.found_solutions.length then
    StepResult.finished (resultOf s.found_solutions)
  else if s.i < s.cells.length then
    if (¬(getCell s.cells s.i).is_white = true ∨ 0 < (getCell s.cells s.i).value) ∧
        s.possible_values_stack.length ≤ s.i then
      StepResult.running { pushFrame s [] with i := s.i + 1 }
    else
      solveAssignOrPop
        (if s.possible_values_stack.length ≤ s.i then
          pushFrame s (compute_possible_values s.i s.cells rows_columns)
        else s) s.i
  else
    if s.i ≠ 0 then
      StepResult.running { s with
        found_solutions := s.found_solutions ++ [s.cells]
        i := s.i - 1 }
    else
      StepResult.finished (resultOf s.found_solutions)

/-- Run the solver loop with the given amount of fuel (`none` = fuel ran
out; a sufficient fuel bound is proved from the decreasing measure below). -/
def solveRun (rows_columns : List Row) : Nat → SolverState → Option Str8tsSolution
  | 0, _ => none
  | fuel + 1, s =>
    match solveStep rows_columns s with
    | StepResult.finished r => some r
    | StepResult.running s' => solveRun rows_columns fuel s'

/-- The state at the top of `solve_backtrack`'s loops. -/
def initState (cells : List Cell) : SolverState :=
  { cells := cells
    possible_values_stack := []
    indices_stack := []
    i := 0
    found_solutions := [] }

/-- The decreasing weight of the backtracking stacks: position `k` carries
its remaining candidates (`frame length - cursor`) at weight `10^(n-1-k)`. -/
def stackMeasure (n : Nat) : Nat → List (List Int) → List Nat → Nat
  | _, [], _ => 0
  | _, _ :: _, [] => 0
  | k, f :: fs, c :: cs => (f.length - c) * 10 ^ (n - 1 - k) + stackMeasure n (k + 1) fs cs

/-- A measure strictly decreasing along every `solveStep`: remaining
solutions to find, stack weight plus the potential of the unexplored cells,
and the stack height. -/
def solverMeasure (s : SolverState) : Nat :=
  (2 - s.found_solutions.length) +
  200 * (stackMeasure s.cells.length 0 s.possible_values_stack s.indices_stack +
    (if s.possible_values_stack.length ≤ s.i then
      10 ^ (s.cells.length - s.i) - 1 else 0)) +
  s.possible_values_stack.length

/-- The structural well-formedness of a solver state: stack lengths agree,
the pointer sits at or one past the stack top, cursors stay within their
frames, frames hold at most nine candidates, and at most two solutions are
recorded. -/
structure SolverInv (s : SolverState) : Prop where
  len_eq : s.indices_stack.length = s.possible_values_stack.length
  i_stack : s.possible_values_stack.length = s.i ∨ s.possible_values_stack.length = s.i + 1
  i_le : s.i ≤ s.cells.length
  stack_le : s.possible_values_stack.length ≤ s.cells.length
  cursor_le : ∀ k, s.indices_stack.getD k 0 ≤ (s.possible_values_stack.getD k []).length
  cap_le : ∀ f ∈ s.possible_values_stack, f.length ≤ 9
  found_le : s.found_solutions.length ≤ 2

/-- `solve_backtrack`: exhaustive backtracking over a copy of the board,
reporting no/one/multiple solutions.  The fuel is the initial measure plus
one, proved sufficient below, so the `getD` default is never taken. -/
def solve_backtrack (cells : List Cell) : Str8tsSolution :=
  (solveRun (compute_rows_columns cells)
    (solverMeasure (initState cells) + 1) (initState cells)).getD Str8tsSolution.None

/-- Agreement of a board with the input board on everything the solver must
not touch: same length, same color/fixed flag/pencil marks everywhere, and
full cell equality at every black or initially filled cell. -/
def ProtectedEq (b w : List Cell) : Prop :=
  w.length = b.length ∧
  (∀ k, (getCell w k).is_white = (getCell b k).is_white ∧
    (getCell w k).is_fixed = (getCell b k).is_fixed ∧
    (getCell w k).small_values = (getCell b k).small_values) ∧
  (∀ k, ((getCell b k).is_white = false ∨ 0 < (getCell b k).value) →
    getCell w k = getCell b k)

/-- The frame-effect invariant of a solver run on input `b`: non-empty
candidate frames belong to white, initially empty cells; the working board
agrees with `b` on every protected cell; so does every recorded solution. -/
def FrameInv (b : List Cell) (s : SolverState) : Prop :=
  (∀ k, s.possible_values_stack.getD k [] ≠ [] →
    (getCell b k).is_white = true ∧ (getCell b k).value ≤ 0) ∧
  ProtectedEq b s.cells ∧
  (∀ w ∈ s.found_solutions, ProtectedEq b w)

/-- A one-cell board holding a filled black cell; the solver must return it
untouched. -/
def frameDemoBoard : List Cell := [⟨7, false, false, []⟩]

/-- The board seen by the solver when it first reached cell `t`: the working
values below `t`, the input board from `t` on. -/
def boardUpTo (t : Nat) (b cur : List Cell) : List Cell :=
  (List.range b.length).map (fun (k : Nat) => if k < t then getCell cur k else getCell b k)

/-- The invariant of a solver run on an input board `b` whose cell `j` has no
candidates: no solution is ever recorded, the pointer never passes `j`, the
cells above the stack still hold their input values, every stacked frame is
the candidate set computed when the solver first reached its cell (or the
empty skip frame), and every assigned cell holds a value of its frame. -/
def CandInv (b : List Cell) (j : Nat) (rc : List Row) (s : SolverState) : Prop :=
  s.found_solutions = [] ∧
  s.i ≤ j ∧
  (∀ k, s.possible_values_stack.length ≤ k → getCell s.cells k = getCell b k) ∧
  (∀ k, k < s.possible_values_stack.length →
    s.possible_values_stack.getD k [] = [] ∨
    s.possible_values_stack.getD k [] =
      compute_possible_values k (boardUpTo k b s.cells) rc) ∧
  (∀ k, k < s.possible_values_stack.length →
    (s.indices_stack.getD k 0 = 0 → getCell s.cells k = getCell b k) ∧
    (0 < s.indices_stack.getD k 0 → ∃ v ∈ s.possible_values_stack.getD k [],
      getCell s.cells k = { getCell b k with value := v }))

/-- An 81-cell board with a dead end: cell 0 is white and empty, but its row
already holds 1..8 and its column holds 9, so no digit fits it. -/
def deadEndBoard : List Cell :=
  ⟨-1, true, false, []⟩ ::
  (((List.range 8).map (fun (k : Nat) => (⟨(k : Int) + 1, true, true, []⟩ : Cell))) ++
    ⟨9, true, true, []⟩ :: (List.range 71).map (fun _ => (⟨-1, false, false, []⟩ : Cell)))

/-- The persisted form of a cell: the tuple
`(value, is_white, is_fixed, small_values)` saved to JSON. -/
abbrev CellData := Int × Bool × Bool × List Bool

/-- The two load-time assertions of `AppState::load_from_file`:
`value == -1 || (1 <= value && value <= 9)` and `small_values.len() == 9`. -/
def valid_cell_data (data : CellData) : Bool :=
  (data.1 == -1 || (decide (1 ≤ data.1) && decide (data.1 ≤ 9))) &&
    (data.2.2.2.length == 9)

/-- The loading loop of `AppState::load_from_file` after JSON parsing:
checks every tuple and writes its fields into cell `i`; a failed assertion
panics, modelled as `none`. -/
def load_from_file_go (cells : List Cell) (i : Nat) :
    List CellData → Option (List Cell)
  | [] => some cells
  | data :: rest =>
    if valid_cell_data data then
      load_from_file_go
        (cells.set i
          { getCell cells i with
            value := data.1
            is_white := data.2.1
            is_fixed := data.2.2.1
            small_values := data.2.2.2 }) (i + 1) rest
    else
      none

/-- `AppState::load_from_file` (the part after reading and parsing the JSON
file): load the cell tuples into the current cells. -/
def load_from_file (cells : List Cell) (cells_data : List CellData) :
    Option (List Cell) :=
  load_from_file_go cells 0 cells_data

/-- `AppState::save_to_file` (the part before JSON encoding): one tuple
`(value, is_white, is_fixed, small_values)` per cell, in order. -/
def save_to_file (cells : List Cell) : List CellData :=
  cells.map (fun cell => (cell.value, cell.is_white, cell.is_fixed, cell.small_values))

/-- The result assembly of `generate_puzzle` (src/str8ts_board.rs, the final
loop): for each index the source binds `let cell = &mut solution_cells[i].clone();`
— a mutable reference to a fresh clone — sets the clone's value to -1 when the
cell is not fixed, and drops the clone.  The vector itself is never written, so
the returned board is the witness solution unchanged. -/
def generate_puzzle_finalize (solution_cells : List Cell) : List Cell :=
  solution_cells

/-- Modelled from the spec: the `UniqueSolution` success step of the puzzle
generator is required to "keep the witness solution's values only at cells
marked fixed, and clear all non-fixed cell values" (this is also what the
duplicated loop in src/main.rs does, writing the modified clone back via
`set_row_data`). -/
def generate_puzzle_finalize_spec (solution_cells : List Cell) : List Cell :=
  solution_cells.map (fun cell =>
    if cell.is_fixed then cell else { cell with value := -1 })

/-- An all-white, all-empty 81-cell board used by concrete witnesses. -/
def emptyWhiteBoard : List Cell :=
  (List.range 81).map (fun _ => ⟨-1, true, false, List.replicate 9 false⟩)

/-- An 81-cell empty board whose cells 2 and 6 are black and the rest white,
so row 0 carries the straight pattern W W B W W W B W W. -/
def stripedBoard : List Cell :=
  (List.range 81).map (fun i =>
    if i = 2 ∨ i = 6 then ⟨-1, false, false, List.replicate 9 false⟩
    else ⟨-1, true, false, List.replicate 9 false⟩)

/-- An 81-cell all-white board whose row 0 starts with the values
5, 3, 5, 7 (digit 5 duplicated), all other cells empty. -/
def dupBoard : List Cell :=
  ([5, 3, 5, 7] : List Int).map (fun v => ⟨v, true, false, List.replicate 9 false⟩) ++
  (List.range 77).map (fun _ => ⟨-1, true, false, List.replicate 9 false⟩)

/-- An 81-cell "solution" board whose cells are all white, non-fixed and
hold the value 5; a concrete input for the generator's result assembly. -/
def solution5Board : List Cell :=
  (List.range 81).map (fun _ => ⟨5, true, false, List.replicate 9 false⟩)

/-! ## Structure of `splitP`: chunks are the maximal runs avoiding `p` -/

theorem splitP_nil (p : α → Bool) : splitP p [] = [[]] := rfl

theorem splitP_cons_pos (p : α → Bool) (a : α) (t : List α) (h : p a = true) :
    splitP p (a :: t) = [] :: splitP p t := by
  simp [splitP, h]

theorem splitP_ne_nil (p : α → Bool) (l : List α) : splitP p l ≠ [] := by
  cases l with
  | nil => simp [splitP]
  | cons a t =>
    by_cases h : p a
    · simp [splitP, h]
    · rcases hsp : splitP p t with _ | ⟨s, ss⟩ <;> simp [splitP, h, hsp]

theorem splitP_cons_neg (p : α → Bool) (a : α) (t : List α) (s : List α)
    (ss : List (List α)) (h : ¬p a = true) (hsp : splitP p t = s :: ss) :
    splitP p (a :: t) = (a :: s) :: ss := by
  simp [splitP, h, hsp]

theorem splitP_first_chunk (p : α → Bool) :
    ∀ (t s₀ : List α) (ss : List (List α)), splitP p t = s₀ :: ss →
      ∃ t', t = s₀ ++ t' ∧
        ((t' = [] ∧ ss = []) ∨
          ∃ b t'', t' = b :: t'' ∧ p b = true ∧ splitP p t'' = ss) := by
  intro t
  induction t with
  | nil =>
    intro s₀ ss h
    rw [splitP_nil] at h
    cases h
    exact ⟨[], rfl, Or.inl ⟨rfl, rfl⟩⟩
  | cons b t₂ ih =>
    intro s₀ ss h
    by_cases hb : p b
    · rw [splitP_cons_pos p b t₂ hb] at h
      cases h
      exact ⟨b :: t₂, rfl, Or.inr ⟨b, t₂, rfl, hb, rfl⟩⟩
    · rcases hsp : splitP p t₂ with _ | ⟨u, uu⟩
      · exact absurd hsp (splitP_ne_nil p t₂)
      · rw [splitP_cons_neg p b t₂ u uu hb hsp] at h
        injection h with h1 h2
        subst h1
        subst h2
        obtain ⟨t₃, ht, hc⟩ := ih u uu hsp
        exact ⟨t₃, by simp [ht], hc⟩

theorem splitP_mem_not_p (p : α → Bool) :
    ∀ (l : List α), ∀ s ∈ splitP p l, ∀ x ∈ s, p x = false := by
  intro l
  induction l with
  | nil =>
    intro s hs x hx
    rw [splitP_nil] at hs
    simp at hs
    subst hs
    simp at hx
  | cons a t ih =>
    intro s hs x hx
    by_cases ha : p a
    · rw [splitP_cons_pos p a t ha, List.mem_cons] at hs
      rcases hs with hs | hs
      · subst hs; simp at hx
      · exact ih s hs x hx
    · rcases hsp : splitP p t with _ | ⟨u, uu⟩
      · exact absurd hsp (splitP_ne_nil p t)
      · rw [splitP_cons_neg p a t u uu ha hsp, List.mem_cons] at hs
        rcases hs with hs | hs
        · subst hs
          rw [List.mem_cons] at hx
          rcases hx with hx | hx
          · subst hx; simpa using ha
          · exact ih u (by rw [hsp]; exact List.mem_cons_self _ _) x hx
        · exact ih s (by rw [hsp]; exact List.mem_cons_of_mem _ hs) x hx

theorem splitP_flatten (p : α → Bool) :
    ∀ (l : List α), (splitP p l).flatten = l.filter (fun x => !p x) := by
  intro l
  induction l with
  | nil => simp [splitP]
  | cons a t ih =>
    by_cases ha : p a
    · rw [splitP_cons_pos p a t ha]
      simp [ha, ih]
    · rcases hsp : splitP p t with _ | ⟨u, uu⟩
      · exact absurd hsp (splitP_ne_nil p t)
      · rw [splitP_cons_neg p a t u uu ha hsp]
        have hft : (u :: uu).flatten = List.filter (fun x => !p x) t := by
          rw [← hsp]; exact ih
        simp only [List.flatten_cons] at hft ⊢
        simp [List.filter_cons, ha, ← hft]

theorem flatten_filter_nonempty (L : List (List α)) :
    (L.filter (fun s => decide (0 < s.length))).flatten = L.flatten := by
  induction L with
  | nil => rfl
  | cons s L ih =>
    cases s with
    | nil => simpa using ih
    | cons x s => simp [ih]

theorem lastOk_cons (p : α → Bool) (a : α) (l : List α)
    (h : ∀ x ∈ l.getLast?, p x = true) (ha : l = [] → p a = true) :
    ∀ x ∈ (a :: l).getLast?, p x = true := by
  cases l with
  | nil =>
    intro x hx
    simp at hx
    subst hx
    exact ha rfl
  | cons b l =>
    intro x hx
    rw [List.getLast?_cons_cons] at hx
    exact h x hx

theorem splitP_chunk_decomp (p : α → Bool) :
    ∀ (n : Nat) (l : List α), l.length ≤ n → ∀ s ∈ splitP p l, s ≠ [] →
      ∃ l₁ l₂, l = l₁ ++ s ++ l₂ ∧
        (∀ x ∈ l₁.getLast?, p x = true) ∧ (∀ x ∈ l₂.head?, p x = true) := by
  intro n
  induction n with
  | zero =>
    intro l hl s hs hne
    have : l = [] := List.length_eq_zero.mp (Nat.le_zero.mp hl)
    subst this
    rw [splitP_nil] at hs
    simp at hs
    exact absurd hs hne
  | succ n ih =>
    intro l hl s hs hne
    cases l with
    | nil =>
      rw [splitP_nil] at hs
      simp at hs
      exact absurd hs hne
    | cons a t =>
      by_cases ha : p a
      · rw [splitP_cons_pos p a t ha, List.mem_cons] at hs
        rcases hs with hs | hs
        · exact absurd hs hne
        · obtain ⟨l₁, l₂, ht, h1, h2⟩ :=
            ih t (by simpa using Nat.le_of_succ_le_succ hl) s hs hne
          exact ⟨a :: l₁, l₂, by simp [ht],
            lastOk_cons p a l₁ h1 (fun _ => ha), h2⟩
      · rcases hsp : splitP p t with _ | ⟨u, uu⟩
        · exact absurd hsp (splitP_ne_nil p t)
        · rw [splitP_cons_neg p a t u uu ha hsp, List.mem_cons] at hs
          obtain ⟨t', hdecomp, hc⟩ :=
            splitP_first_chunk p (a :: t) (a :: u) uu
              (splitP_cons_neg p a t u uu ha hsp)
          rcases hs with hs | hs
          · refine ⟨[], t', by rw [hs]; simpa using hdecomp, by simp, ?_⟩
            rcases hc with ⟨h', _⟩ | ⟨b, t'', ht', hb, _⟩
            · subst h'; simp
            · subst ht'
              intro x hx
              simp at hx
              subst hx
              exact hb
          · rcases hc with ⟨h', huu⟩ | ⟨b, t'', ht', hb, hsp''⟩
            · subst huu; simp at hs
            · have htl : t = u ++ b :: t'' := by
                subst ht'
                have := hdecomp
                simp only [List.cons_append] at this
                exact (List.cons.injEq a t a (u ++ b :: t'')).mp this |>.2
              have hlen : t''.length ≤ n := by
                have h1' : t.length = u.length + (t''.length + 1) := by
                  rw [htl]; simp
                have h2' : t.length ≤ n := by simpa using Nat.le_of_succ_le_succ hl
                omega
              obtain ⟨l₁, l₂, ht'', h1, h2⟩ := ih t'' hlen s (by rw [hsp'']; exact hs) hne
              refine ⟨(a :: u) ++ b :: l₁, l₂, ?_, ?_, h2⟩
              · rw [htl, ht'']
                simp
              · have hlast : ((a :: u) ++ b :: l₁).getLast? = (b :: l₁).getLast? := by
                  rw [List.getLast?_append]
                  cases hbl : (b :: l₁).getLast? with
                  | none => simp at hbl
                  | some y => simp
                rw [hlast]
                exact lastOk_cons p b l₁ h1 (fun _ => hb)

theorem countP_one_of_mem_flatten_nodup (L : List (List α)) (i : α)
    (q : List α → Bool) (hq : ∀ s, q s = true ↔ i ∈ s)
    (hnd : L.flatten.Nodup) (hmem : i ∈ L.flatten) :
    L.countP q = 1 := by
  induction L with
  | nil => simp at hmem
  | cons s L ih =>
    rw [List.flatten_cons] at hnd hmem
    by_cases hi : i ∈ s
    · have hdisj : i ∉ L.flatten :=
        fun hin => (List.disjoint_of_nodup_append hnd) hi hin
      have hzero : L.countP q = 0 := by
        rw [List.countP_eq_zero]
        intro t ht hqt
        exact hdisj (List.mem_flatten.mpr ⟨t, ht, (hq t).mp hqt⟩)
      rw [List.countP_cons, hzero, if_pos ((hq s).mpr hi)]
    · have hmem' : i ∈ L.flatten := by
        rcases List.mem_append.mp hmem with h | h
        · exact absurd h hi
        · exact h
      rw [List.countP_cons, ih hnd.of_append_right hmem',
        if_neg (fun hqs => hi ((hq s).mp hqs))]

theorem find?_eq_of_countP_one (L : List (List α)) (i : α) (S : List α)
    (q : List α → Bool) (hq : ∀ s, q s = true ↔ i ∈ s)
    (hcount : L.countP q = 1) (hS : S ∈ L) (hi : i ∈ S) :
    L.find? q = some S := by
  induction L with
  | nil => simp at hS
  | cons t L ih =>
    by_cases ht : i ∈ t
    · rw [List.find?_cons_of_pos _ ((hq t).mpr ht)]
      rw [List.countP_cons, if_pos ((hq t).mpr ht)] at hcount
      have hzero : L.countP q = 0 := by omega
      rw [List.countP_eq_zero] at hzero
      rcases List.mem_cons.mp hS with hS | hS
      · rw [hS]
      · exact absurd ((hq S).mpr hi) (hzero S hS)
    · rw [List.find?_cons_of_neg _ (fun hqt => ht ((hq t).mp hqt))]
      rw [List.countP_cons, if_neg (fun hqt => ht ((hq t).mp hqt))] at hcount
      rcases List.mem_cons.mp hS with hS | hS
      · exact absurd (hS ▸ hi) ht
      · exact ih (by omega) hS

/-! ## Structure of the straights recognized by `Row::new` -/

theorem Row.new_straights_flatten (row_cells : List Nat) (all_cells : List Cell) :
    (Row.new row_cells all_cells).straights.flatten
      = row_cells.filter (fun i => (getCell all_cells i).is_white) := by
  show ((splitP (fun i => !(getCell all_cells i).is_white) row_cells).filter
      (fun s => decide (0 < s.length))).flatten = _
  rw [flatten_filter_nonempty, splitP_flatten]
  simp

theorem Row.new_straights_white (row_cells : List Nat) (all_cells : List Cell)
    (s : List Nat) (hs : s ∈ (Row.new row_cells all_cells).straights) :
    ∀ i ∈ s, (getCell all_cells i).is_white = true := by
  intro i hi
  have hs' : s ∈ splitP (fun i => !(getCell all_cells i).is_white) row_cells :=
    List.mem_of_mem_filter hs
  have := splitP_mem_not_p _ row_cells s hs' i hi
  simpa using this

theorem Row.new_straights_mem_row (row_cells : List Nat) (all_cells : List Cell)
    (s : List Nat) (hs : s ∈ (Row.new row_cells all_cells).straights) :
    ∀ i ∈ s, i ∈ row_cells := by
  intro i hi
  have : i ∈ (Row.new row_cells all_cells).straights.flatten :=
    List.mem_flatten.mpr ⟨s, hs, hi⟩
  rw [Row.new_straights_flatten] at this
  exact List.mem_of_mem_filter this

theorem Row.new_white_mem_straights (row_cells : List Nat) (all_cells : List Cell)
    (i : Nat) (hrc : i ∈ row_cells) (hw : (getCell all_cells i).is_white = true) :
    ∃ s ∈ (Row.new row_cells all_cells).straights, i ∈ s := by
  have : i ∈ (Row.new row_cells all_cells).straights.flatten := by
    rw [Row.new_straights_flatten]
    exact List.mem_filter.mpr ⟨hrc, hw⟩
  exact List.mem_flatten.mp this

theorem Row.new_straights_countP (row_cells : List Nat) (all_cells : List Cell)
    (hnd : row_cells.Nodup) (i : Nat) (hrc : i ∈ row_cells)
    (hw : (getCell all_cells i).is_white = true)
    (q : List Nat → Bool) (hq : ∀ s, q s = true ↔ i ∈ s) :
    (Row.new row_cells all_cells).straights.countP q = 1 := by
  apply countP_one_of_mem_flatten_nodup _ i q hq
  · rw [Row.new_straights_flatten]
    exact hnd.filter _
  · rw [Row.new_straights_flatten]
    exact List.mem_filter.mpr ⟨hrc, hw⟩

/-- With distinct group indices the straight containing a cell is unique,
so the `find?` of `straight_of` returns exactly it. -/
theorem Row.new_straight_of_eq (row_cells : List Nat) (all_cells : List Cell)
    (hnd : row_cells.Nodup) (S : List Nat) (m : Nat)
    (hS : S ∈ (Row.new row_cells all_cells).straights) (hm : m ∈ S) :
    (Row.new row_cells all_cells).straight_of m = some S := by
  have hq : ∀ s : List Nat, s.contains m = true ↔ m ∈ s := by
    intro s
    simp
  exact find?_eq_of_countP_one _ m S _ hq
    (Row.new_straights_countP row_cells all_cells hnd m
      (Row.new_straights_mem_row row_cells all_cells S hS m hm)
      (Row.new_straights_white row_cells all_cells S hS m hm) _ hq)
    hS hm

theorem rowIndices_nodup (r : Nat) : (rowIndices r).Nodup := by
  refine List.Nodup.map ?_ (List.nodup_range 9)
  intro a b hab
  dsimp at hab
  omega

theorem colIndices_nodup (c : Nat) : (colIndices c).Nodup := by
  refine List.Nodup.map ?_ (List.nodup_range 9)
  intro a b hab
  dsimp at hab
  omega

theorem mem_rowIndices (i : Nat) (h : i < 81) : i ∈ rowIndices (i / 9) := by
  rw [rowIndices, List.mem_map]
  exact ⟨i % 9, List.mem_range.mpr (Nat.mod_lt _ (by omega)), by omega⟩

theorem mem_colIndices (i : Nat) (h : i < 81) : i ∈ colIndices (i % 9) := by
  rw [colIndices, List.mem_map]
  exact ⟨i / 9, List.mem_range.mpr (by omega), by omega⟩

theorem compute_rows_columns_getD_row (cells : List Cell) (r : Nat) (hr : r < 9) :
    (compute_rows_columns cells).getD r default = Row.new (rowIndices r) cells := by
  rw [compute_rows_columns, List.getD_eq_getElem?_getD, List.getElem?_append]
  simp [hr]

theorem compute_rows_columns_getD_col (cells : List Cell) (c : Nat) (hc : c < 9) :
    (compute_rows_columns cells).getD (9 + c) default = Row.new (colIndices c) cells := by
  rw [compute_rows_columns, List.getD_eq_getElem?_getD, List.getElem?_append]
  simp [hc]

/-! ## Persistence: validation and round trip -/

theorem load_from_file_go_eq_none_iff (cells : List Cell) (i : Nat)
    (data : List CellData) :
    load_from_file_go cells i data = none ↔
      ∃ d ∈ data, valid_cell_data d = false := by
  induction data generalizing cells i with
  | nil => simp [load_from_file_go]
  | cons d rest ih =>
    by_cases h : valid_cell_data d
    · simp [load_from_file_go, h, ih]
    · simp only [load_from_file_go, if_neg h]
      constructor
      · intro _
        exact ⟨d, by simp, by simpa using h⟩
      · intro _
        trivial

theorem valid_cell_data_eq_false_iff (d : CellData) :
    valid_cell_data d = false ↔
      (¬(d.1 = -1 ∨ (1 ≤ d.1 ∧ d.1 ≤ 9)) ∨ d.2.2.2.length ≠ 9) := by
  rcases d with ⟨v, w, f, sv⟩
  by_cases h1 : v = -1 <;> by_cases h2 : 1 ≤ v <;> by_cases h3 : v ≤ 9 <;>
    by_cases h4 : sv.length = 9 <;>
    simp [valid_cell_data, h1, h2, h3, h4]

/-- Claim C7: the load operation fatally fails (rejects the file) iff some
cell tuple has a value outside `{-1} ∪ [1,9]` or a `small_values` array of
length ≠ 9; when every tuple satisfies both conditions the checks pass for
every cell. -/
theorem load_from_file_validation (cells : List Cell) (cells_data : List CellData) :
    load_from_file cells cells_data = none ↔
      ∃ d ∈ cells_data,
        ¬(d.1 = -1 ∨ (1 ≤ d.1 ∧ d.1 ≤ 9)) ∨ d.2.2.2.length ≠ 9 := by
  rw [load_from_file, load_from_file_go_eq_none_iff]
  constructor
  · rintro ⟨d, hd, hfalse⟩
    exact ⟨d, hd, (valid_cell_data_eq_false_iff d).mp hfalse⟩
  · rintro ⟨d, hd, hbad⟩
    exact ⟨d, hd, (valid_cell_data_eq_false_iff d).mpr hbad⟩

theorem list_set_self (l : List α) (n : Nat) (a : α) (h : l[n]? = some a) :
    l.set n a = l := by
  apply List.ext_getElem?
  intro m
  rw [List.getElem?_set]
  split
  · rename_i hnm
    subst hnm
    rw [if_pos (by exact (List.getElem?_eq_some.mp h).1), h]
  · rfl

theorem load_save_go (pre cur : List Cell)
    (h : ∀ c ∈ cur,
      (c.value = -1 ∨ (1 ≤ c.value ∧ c.value ≤ 9)) ∧ c.small_values.length = 9) :
    load_from_file_go (pre ++ cur) pre.length (save_to_file cur) = some (pre ++ cur) := by
  induction cur generalizing pre with
  | nil => simp [save_to_file, load_from_file_go]
  | cons c cur ih =>
    have hc := h c (by simp)
    have hvalid : valid_cell_data (c.value, c.is_white, c.is_fixed, c.small_values) = true := by
      rcases hc with ⟨hv, hl⟩
      simp only [valid_cell_data, Bool.and_eq_true, Bool.or_eq_true, beq_iff_eq]
      refine ⟨?_, by simpa using hl⟩
      rcases hv with h1 | h2
      · exact Or.inl h1
      · exact Or.inr (by simpa using h2)
    have hsome : (pre ++ c :: cur)[pre.length]? = some c := by
      rw [List.getElem?_append]
      simp
    have hget : getCell (pre ++ c :: cur) pre.length = c := by
      rw [getCell, List.getD_eq_getElem?_getD, hsome]
      rfl
    simp only [save_to_file, List.map_cons, load_from_file_go, hvalid, if_pos, hget]
    rw [list_set_self _ _ _ (by exact hsome)]
    have ih' := ih (pre ++ [c]) (fun x hx => h x (by simp [hx]))
    simpa [save_to_file, List.append_assoc] using ih'

/-- Claim C8: serializing every cell to the persisted tuple format and
loading it back yields an identical board (value, color, fixed flag and
pencil marks alike), for every board satisfying the cell data invariant. -/
theorem save_load_round_trip (cells : List Cell)
    (h : ∀ c ∈ cells,
      (c.value = -1 ∨ (1 ≤ c.value ∧ c.value ≤ 9)) ∧ c.small_values.length = 9) :
    load_from_file cells (save_to_file cells) = some cells := by
  simpa [load_from_file] using load_save_go [] cells h

/-- Witness for C8 at a concrete board. -/
theorem save_load_round_trip_witness :
    load_from_file emptyWhiteBoard (save_to_file emptyWhiteBoard) = some emptyWhiteBoard :=
  save_load_round_trip emptyWhiteBoard (by decide)

/-! ## The straight filter is monotone (C5) -/

/-- Claim C5: for every group, cell index belonging to one of its straights,
candidate list and board, every value returned by
`possible_straight_values_cells` occurs among the input candidates. -/
theorem possible_straight_values_cells_subset (R : Row) (cell_index : Nat)
    (candidate_values : List Int) (all_cells : List Cell)
    (hmem : ∃ s ∈ R.straights, cell_index ∈ s) :
    ∀ v ∈ R.possible_straight_values_cells cell_index candidate_values all_cells,
      v ∈ candidate_values := by
  intro v hv
  simp only [Row.possible_straight_values_cells] at hv
  split at hv
  · exact (List.mem_filter.mp hv).1
  · exact hv

/-- Witness for C5 at a concrete group, cell, candidate list and board. -/
theorem possible_straight_values_cells_subset_witness :
    (∃ s ∈ (Row.new (rowIndices 0) emptyWhiteBoard).straights, (4 : Nat) ∈ s) ∧
    (∀ v ∈ (Row.new (rowIndices 0) emptyWhiteBoard).possible_straight_values_cells
        4 [1, 2] emptyWhiteBoard, v ∈ ([1, 2] : List Int)) :=
  ⟨by decide,
   possible_straight_values_cells_subset _ 4 [1, 2] emptyWhiteBoard (by decide)⟩

/-! ## Validator correctness (C1) -/

theorem mem_multiple_occurrences_iff (R : Row) (all_cells : List Cell) (l : List Nat) :
    l ∈ R.multiple_occurrences all_cells ↔
      ∃ d : Int, 1 ≤ d ∧ d ≤ 9 ∧
        l = R.row_cells.filter (fun i => (getCell all_cells i).value == d) ∧
        2 ≤ l.length := by
  rw [Row.multiple_occurrences, List.mem_filter, List.mem_map]
  constructor
  · rintro ⟨⟨k, hk, rfl⟩, hlen⟩
    have hk' := List.mem_range.mp hk
    exact ⟨(k : Int) + 1, by omega, by omega, rfl, by simpa using hlen⟩
  · rintro ⟨d, hd1, hd9, hl, hlen⟩
    have hcast : (((d - 1).toNat : Int)) + 1 = d := by omega
    refine ⟨⟨(d - 1).toNat, List.mem_range.mpr (by omega), ?_⟩, ?_⟩
    · rw [hcast]
      exact hl.symm
    · simpa using hlen

theorem multiple_occurrences_eq_nil_iff (R : Row) (all_cells : List Cell) :
    R.multiple_occurrences all_cells = [] ↔
      ∀ d : Int, 1 ≤ d → d ≤ 9 →
        R.row_cells.countP (fun i => (getCell all_cells i).value == d) ≤ 1 := by
  rw [Row.multiple_occurrences, List.filter_eq_nil_iff]
  constructor
  · intro h d hd1 hd9
    have hcast : (((d - 1).toNat : Int)) + 1 = d := by omega
    have hmem : R.row_cells.filter (fun i => (getCell all_cells i).value == d) ∈
        (List.range 9).map (fun (k : Nat) =>
          R.row_cells.filter (fun i => (getCell all_cells i).value == ((k : Int) + 1))) := by
      have hkmem : (d - 1).toNat ∈ List.range 9 := List.mem_range.mpr (by omega)
      refine List.mem_map.mpr ⟨(d - 1).toNat, hkmem, ?_⟩
      rw [hcast]
    have hthis := h _ hmem
    rw [List.countP_eq_length_filter]
    simpa using hthis
  · intro h l hl
    obtain ⟨k, hk, rfl⟩ := List.mem_map.mp hl
    have hk' := List.mem_range.mp hk
    have hthis := h ((k : Int) + 1) (by omega) (by omega)
    rw [List.countP_eq_length_filter] at hthis
    simpa using hthis

theorem mem_straights_values_iff (R : Row) (all_cells : List Cell) (kv : Nat × List Int) :
    kv ∈ R.straights_values all_cells ↔
      (∃ s, R.straights[kv.1]? = some s ∧ kv.2 = filledValues s all_cells) ∧
        kv.2 ≠ [] := by
  rw [Row.straights_values, List.mem_filter, List.mem_enum_iff_getElem?, List.getElem?_map]
  constructor
  · rintro ⟨hmap, hlen⟩
    rcases hs : R.straights[kv.1]? with _ | s
    · rw [hs] at hmap; simp at hmap
    · rw [hs] at hmap
      simp only [Option.map_some', Option.some.injEq] at hmap
      refine ⟨⟨s, rfl, hmap.symm⟩, ?_⟩
      have : 0 < kv.2.length := by simpa using hlen
      exact List.ne_nil_of_length_pos this
  · rintro ⟨⟨s, hs, hv⟩, hne⟩
    constructor
    · rw [hs, Option.map_some', hv]
    · simpa using List.length_pos.mpr hne

theorem mem_invalid_straights_iff (R : Row) (all_cells : List Cell) (s : List Nat) :
    s ∈ R.invalid_straights all_cells ↔
      s ∈ R.straights ∧ filledValues s all_cells ≠ [] ∧
        s.length ≤ (((filledValues s all_cells).max?.getD 0) -
          ((filledValues s all_cells).min?.getD 0)).toNat := by
  rw [Row.invalid_straights, List.mem_map]
  constructor
  · rintro ⟨kv, hkv, rfl⟩
    rw [List.mem_filter] at hkv
    obtain ⟨hmem, hcond⟩ := hkv
    rw [mem_straights_values_iff] at hmem
    obtain ⟨⟨t, ht, hv⟩, hne⟩ := hmem
    have hgetD : R.straights.getD kv.1 [] = t := by
      rw [List.getD_eq_getElem?_getD, ht]
      rfl
    rw [hgetD]
    refine ⟨List.mem_iff_getElem?.mpr ⟨kv.1, ht⟩, by rwa [hv] at hne, ?_⟩
    have hcond' : (R.straights.getD kv.1 []).length ≤
        ((kv.2.max?.getD 0) - (kv.2.min?.getD 0)).toNat := by simpa using hcond
    rw [hgetD, hv] at hcond'
    exact hcond'
  · rintro ⟨hs, hne, hspan⟩
    obtain ⟨k, hk⟩ := List.mem_iff_getElem?.mp hs
    have hgetD : R.straights.getD k [] = s := by
      rw [List.getD_eq_getElem?_getD, hk]
      rfl
    refine ⟨(k, filledValues s all_cells), ?_, hgetD⟩
    rw [List.mem_filter, mem_straights_values_iff]
    refine ⟨⟨⟨s, hk, rfl⟩, hne⟩, ?_⟩
    simp only [hgetD, decide_eq_true_eq]
    exact hspan

theorem invalid_straights_eq_nil_iff (R : Row) (all_cells : List Cell) :
    R.invalid_straights all_cells = [] ↔
      ∀ s ∈ R.straights, filledValues s all_cells ≠ [] →
        (((filledValues s all_cells).max?.getD 0) -
          ((filledValues s all_cells).min?.getD 0)).toNat < s.length := by
  constructor
  · intro h s hs hne
    by_contra hcon
    push_neg at hcon
    have hmem : s ∈ R.invalid_straights all_cells :=
      (mem_invalid_straights_iff R all_cells s).mpr ⟨hs, hne, hcon⟩
    rw [h] at hmem
    simp at hmem
  · intro h
    by_contra hcon
    obtain ⟨s, hs⟩ := List.exists_mem_of_ne_nil _ hcon
    rw [mem_invalid_straights_iff] at hs
    have := h s hs.1 hs.2.1
    omega

/-- Claim C1: `validate` reports no violation iff no digit 1..9 occurs in two
or more cells of the group and no straight with at least one filled cell has
a filled-value span reaching its cell count; and on a violation the returned
collections are exactly the index sets of the duplicated digits and exactly
the full index sets of the violating straights. -/
theorem validate_correct (R : Row) (all_cells : List Cell)
    (hv : ∀ i ∈ R.row_cells, (getCell all_cells i).value ≤ 9) :
    (R.validate all_cells = none ↔
      ((∀ d : Int, 1 ≤ d → d ≤ 9 →
          R.row_cells.countP (fun i => (getCell all_cells i).value == d) ≤ 1) ∧
        (∀ s ∈ R.straights, filledValues s all_cells ≠ [] →
          (((filledValues s all_cells).max?.getD 0) -
            ((filledValues s all_cells).min?.getD 0)).toNat < s.length))) ∧
    (∀ dups invs, R.validate all_cells = some (dups, invs) →
      (∀ l, l ∈ dups ↔ ∃ d : Int, 1 ≤ d ∧ d ≤ 9 ∧
          l = R.row_cells.filter (fun i => (getCell all_cells i).value == d) ∧
          2 ≤ l.length) ∧
      (∀ s, s ∈ invs ↔ s ∈ R.straights ∧ filledValues s all_cells ≠ [] ∧
          s.length ≤ (((filledValues s all_cells).max?.getD 0) -
            ((filledValues s all_cells).min?.getD 0)).toNat)) := by
  constructor
  · rw [Row.validate]
    split
    · rename_i hcond
      apply iff_of_false (by simp)
      rintro ⟨h1, h2⟩
      rw [← multiple_occurrences_eq_nil_iff] at h1
      rw [← invalid_straights_eq_nil_iff] at h2
      rw [h1, h2] at hcond
      simp at hcond
    · rename_i hcond
      push_neg at hcond
      apply iff_of_true rfl
      constructor
      · rw [← multiple_occurrences_eq_nil_iff]
        exact List.length_eq_zero.mp (by omega)
      · rw [← invalid_straights_eq_nil_iff]
        exact List.length_eq_zero.mp (by omega)
  · intro dups invs h
    rw [Row.validate] at h
    split at h
    · injection h with h'
      injection h' with hd hi
      subst hd
      subst hi
      exact ⟨fun l => mem_multiple_occurrences_iff R all_cells l,
        fun s => mem_invalid_straights_iff R all_cells s⟩
    · exact Option.noConfusion h

/-- Witness for C1 at the board whose row 0 holds 5, 3, 5, 7. -/
theorem validate_correct_witness :
    (∀ i ∈ (Row.new (rowIndices 0) dupBoard).row_cells,
      (getCell dupBoard i).value ≤ 9) ∧
    (((Row.new (rowIndices 0) dupBoard).validate dupBoard = none ↔
      ((∀ d : Int, 1 ≤ d → d ≤ 9 →
          (Row.new (rowIndices 0) dupBoard).row_cells.countP
            (fun i => (getCell dupBoard i).value == d) ≤ 1) ∧
        (∀ s ∈ (Row.new (rowIndices 0) dupBoard).straights,
          filledValues s dupBoard ≠ [] →
          (((filledValues s dupBoard).max?.getD 0) -
            ((filledValues s dupBoard).min?.getD 0)).toNat < s.length))) ∧
    (∀ dups invs,
      (Row.new (rowIndices 0) dupBoard).validate dupBoard = some (dups, invs) →
      (∀ l, l ∈ dups ↔ ∃ d : Int, 1 ≤ d ∧ d ≤ 9 ∧
          l = (Row.new (rowIndices 0) dupBoard).row_cells.filter
            (fun i => (getCell dupBoard i).value == d) ∧
          2 ≤ l.length) ∧
      (∀ s, s ∈ invs ↔ s ∈ (Row.new (rowIndices 0) dupBoard).straights ∧
          filledValues s dupBoard ≠ [] ∧
          s.length ≤ (((filledValues s dupBoard).max?.getD 0) -
            ((filledValues s dupBoard).min?.getD 0)).toNat))) :=
  ⟨by decide, validate_correct (Row.new (rowIndices 0) dupBoard) dupBoard (by decide)⟩

/-! ## The candidate engine (C2) -/

theorem mem_missing_values_cells_none (R : Row) (all_cells : List Cell) (v : Int) :
    v ∈ R.missing_values_cells none all_cells ↔
      (1 ≤ v ∧ v ≤ 9) ∧ ∀ i ∈ R.row_cells, (getCell all_cells i).value ≠ v := by
  simp only [Row.missing_values_cells, Option.isNone_none, Bool.or_true, Bool.and_true]
  rw [List.mem_map]
  constructor
  · rintro ⟨k, hk, rfl⟩
    rw [List.mem_filter, List.mem_range] at hk
    obtain ⟨hk9, hp⟩ := hk
    refine ⟨⟨by omega, by omega⟩, ?_⟩
    intro i hi hv
    rw [Bool.not_eq_true', List.any_eq_false] at hp
    exact hp i hi (beq_iff_eq.mpr hv)
  · rintro ⟨⟨h1, h9⟩, hnone⟩
    have hcast : (((v - 1).toNat : Int)) + 1 = v := by omega
    refine ⟨(v - 1).toNat, ?_, hcast⟩
    rw [List.mem_filter, List.mem_range]
    refine ⟨by omega, ?_⟩
    rw [Bool.not_eq_true', List.any_eq_false]
    intro i hi hbeq
    rw [hcast] at hbeq
    exact hnone i hi (beq_iff_eq.mp hbeq)

theorem mem_missing_values_cells_some (R : Row) (candidates : List Int)
    (all_cells : List Cell) (v : Int) :
    v ∈ R.missing_values_cells (some candidates) all_cells ↔
      ((1 ≤ v ∧ v ≤ 9) ∧ (∀ i ∈ R.row_cells, (getCell all_cells i).value ≠ v)) ∧
        v ∈ candidates := by
  simp only [Row.missing_values_cells, Option.isNone_some, Bool.or_false]
  rw [List.mem_map]
  constructor
  · rintro ⟨k, hk, rfl⟩
    rw [List.mem_filter, List.mem_range] at hk
    obtain ⟨hk9, hp⟩ := hk
    rw [Bool.and_eq_true, Bool.not_eq_true', List.any_eq_false] at hp
    obtain ⟨hnp, hcand⟩ := hp
    refine ⟨⟨⟨by omega, by omega⟩, ?_⟩, by simpa using hcand⟩
    intro i hi hv
    exact hnp i hi (beq_iff_eq.mpr hv)
  · rintro ⟨⟨⟨h1, h9⟩, hnone⟩, hcand⟩
    have hcast : (((v - 1).toNat : Int)) + 1 = v := by omega
    refine ⟨(v - 1).toNat, ?_, hcast⟩
    rw [List.mem_filter, List.mem_range]
    refine ⟨by omega, ?_⟩
    rw [Bool.and_eq_true, Bool.not_eq_true', List.any_eq_false]
    constructor
    · intro i hi hbeq
      rw [hcast] at hbeq
      exact hnone i hi (beq_iff_eq.mp hbeq)
    · rw [hcast]
      simpa using hcand

/-- Claim C2: for every cell, the first two stages of
`compute_possible_values` compute exactly the digits missing from the cell's
row intersected with those missing from its column; a white cell's result
additionally passes through `possible_straight_values` of the row straight
and then of the column straight, each fed the previous result, while a black
cell skips the straight filtering entirely. -/
theorem compute_possible_values_spec (cell_index : Nat) (all_cells : List Cell)
    (h81 : cell_index < 81) :
    (∀ v : Int,
      v ∈ ((compute_rows_columns all_cells).getD (9 + cell_index % 9)
            default).missing_values_cells
          (some (((compute_rows_columns all_cells).getD (cell_index / 9)
            default).missing_values_cells none all_cells)) all_cells ↔
        (1 ≤ v ∧ v ≤ 9) ∧
        (∀ i ∈ rowIndices (cell_index / 9), (getCell all_cells i).value ≠ v) ∧
        (∀ i ∈ colIndices (cell_index % 9), (getCell all_cells i).value ≠ v)) ∧
    compute_possible_values cell_index all_cells (compute_rows_columns all_cells) =
      (if (getCell all_cells cell_index).is_white then
        ((compute_rows_columns all_cells).getD (9 + cell_index % 9)
          default).possible_straight_values_cells cell_index
          (((compute_rows_columns all_cells).getD (cell_index / 9)
            default).possible_straight_values_cells cell_index
            (((compute_rows_columns all_cells).getD (9 + cell_index % 9)
              default).missing_values_cells
              (some (((compute_rows_columns all_cells).getD (cell_index / 9)
                default).missing_values_cells none all_cells)) all_cells)
            all_cells)
          all_cells
      else
        ((compute_rows_columns all_cells).getD (9 + cell_index % 9)
          default).missing_values_cells
          (some (((compute_rows_columns all_cells).getD (cell_index / 9)
            default).missing_values_cells none all_cells)) all_cells) := by
  constructor
  · intro v
    rw [compute_rows_columns_getD_row all_cells (cell_index / 9) (by omega),
      compute_rows_columns_getD_col all_cells (cell_index % 9) (by omega),
      mem_missing_values_cells_some, mem_missing_values_cells_none]
    show (((1 ≤ v ∧ v ≤ 9) ∧ ∀ i ∈ colIndices (cell_index % 9), _) ∧
        ((1 ≤ v ∧ v ≤ 9) ∧ ∀ i ∈ rowIndices (cell_index / 9), _)) ↔ _
    tauto
  · rfl

/-- Witness for C2: the base-stage characterization at cell 4 of the
duplicate board, instantiated at the digit 3. -/
theorem compute_possible_values_spec_witness :
    (4 : Nat) < 81 ∧
    ((3 : Int) ∈ ((compute_rows_columns dupBoard).getD (9 + 4 % 9)
          default).missing_values_cells
        (some (((compute_rows_columns dupBoard).getD (4 / 9)
          default).missing_values_cells none dupBoard)) dupBoard ↔
      ((1 : Int) ≤ 3 ∧ (3 : Int) ≤ 9) ∧
      (∀ i ∈ rowIndices (4 / 9), (getCell dupBoard i).value ≠ 3) ∧
      (∀ i ∈ colIndices (4 % 9), (getCell dupBoard i).value ≠ 3)) :=
  ⟨by decide, (compute_possible_values_spec 4 dupBoard (by decide)).1 3⟩

/-! ## The straights partition the white cells (C6) -/

/-- Claim C6: for a group built by `Row::new` from distinct ordered cell
indices, the straights partition the group's white cells — every white index
of the group lies in exactly one straight, no black cell lies in any
straight, and each straight is a nonempty maximal run of consecutive white
indices of the group (its neighbours in the group order, when they exist,
are black). -/
theorem row_new_straights_partition (row_cells : List Nat) (all_cells : List Cell)
    (hnd : row_cells.Nodup) :
    (∀ i ∈ row_cells, (getCell all_cells i).is_white = true →
      (Row.new row_cells all_cells).straights.countP (fun s => s.contains i) = 1) ∧
    (∀ i : Nat, (getCell all_cells i).is_white = false →
      ∀ s ∈ (Row.new row_cells all_cells).straights, i ∉ s) ∧
    (∀ s ∈ (Row.new row_cells all_cells).straights,
      s ≠ [] ∧ (∀ i ∈ s, (getCell all_cells i).is_white = true) ∧
      ∃ l₁ l₂, row_cells = l₁ ++ s ++ l₂ ∧
        (∀ x ∈ l₁.getLast?, (getCell all_cells x).is_white = false) ∧
        (∀ x ∈ l₂.head?, (getCell all_cells x).is_white = false)) := by
  refine ⟨?_, ?_, ?_⟩
  · intro i hrc hw
    exact Row.new_straights_countP row_cells all_cells hnd i hrc hw _
      (fun s => by simp)
  · intro i hblack s hs hmem
    have hw := Row.new_straights_white row_cells all_cells s hs i hmem
    rw [hblack] at hw
    exact Bool.false_ne_true hw
  · intro s hs
    have hne : s ≠ [] := by
      obtain ⟨_, hlen⟩ := List.mem_filter.mp hs
      exact List.ne_nil_of_length_pos (by simpa using hlen)
    refine ⟨hne, Row.new_straights_white _ _ s hs, ?_⟩
    obtain ⟨l₁, l₂, hdec, h1, h2⟩ :=
      splitP_chunk_decomp (fun i => !(getCell all_cells i).is_white)
        row_cells.length row_cells le_rfl s (List.mem_of_mem_filter hs) hne
    exact ⟨l₁, l₂, hdec, fun x hx => by simpa using h1 x hx,
      fun x hx => by simpa using h2 x hx⟩

/-- Witness for C6: the striped row W W B W W W B W W. -/
theorem row_new_straights_partition_witness :
    (rowIndices 0).Nodup ∧
    ((∀ i ∈ rowIndices 0, (getCell stripedBoard i).is_white = true →
      (Row.new (rowIndices 0) stripedBoard).straights.countP (fun s => s.contains i) = 1) ∧
    (∀ i : Nat, (getCell stripedBoard i).is_white = false →
      ∀ s ∈ (Row.new (rowIndices 0) stripedBoard).straights, i ∉ s) ∧
    (∀ s ∈ (Row.new (rowIndices 0) stripedBoard).straights,
      s ≠ [] ∧ (∀ i ∈ s, (getCell stripedBoard i).is_white = true) ∧
      ∃ l₁ l₂, rowIndices 0 = l₁ ++ s ++ l₂ ∧
        (∀ x ∈ l₁.getLast?, (getCell stripedBoard x).is_white = false) ∧
        (∀ x ∈ l₂.head?, (getCell stripedBoard x).is_white = false))) :=
  ⟨by decide, row_new_straights_partition (rowIndices 0) stripedBoard (by decide)⟩

/-! ## The straight lookup panic and its unreachability (C10) -/

/-- Claim C10: the straight lookup of `possible_straight_values_cells` comes
back empty (the source's `.expect("Cell not in any straight.")` panic) exactly
when the cell belongs to no straight of the group; and under
`compute_possible_values` — which consults the row group and column group of a
white cell — the lookup always succeeds, so the panic branch is unreachable. -/
theorem straight_of_panic_unreachable :
    (∀ (R : Row) (i : Nat), R.straight_of i = none ↔ ∀ s ∈ R.straights, i ∉ s) ∧
    (∀ (all_cells : List Cell) (i : Nat), i < 81 →
      (getCell all_cells i).is_white = true →
      (((compute_rows_columns all_cells).getD (i / 9) default).straight_of i).isSome = true ∧
      (((compute_rows_columns all_cells).getD (9 + i % 9) default).straight_of i).isSome = true) := by
  constructor
  · intro R i
    rw [Row.straight_of, List.find?_eq_none]
    simp
  · intro all_cells i hi hw
    constructor
    · rw [compute_rows_columns_getD_row all_cells (i / 9) (by omega)]
      obtain ⟨s, hs, hmem⟩ := Row.new_white_mem_straights (rowIndices (i / 9))
        all_cells i (mem_rowIndices i hi) hw
      rw [Row.straight_of, List.find?_isSome]
      exact ⟨s, hs, by simpa using hmem⟩
    · rw [compute_rows_columns_getD_col all_cells (i % 9) (by omega)]
      obtain ⟨s, hs, hmem⟩ := Row.new_white_mem_straights (colIndices (i % 9))
        all_cells i (mem_colIndices i hi) hw
      rw [Row.straight_of, List.find?_isSome]
      exact ⟨s, hs, by simpa using hmem⟩

/-- Witness for C10 at a concrete white cell of a concrete board. -/
theorem straight_of_panic_unreachable_witness :
    ((Row.new (rowIndices 0) stripedBoard).straight_of 4 = none ↔
      ∀ s ∈ (Row.new (rowIndices 0) stripedBoard).straights, 4 ∉ s) ∧
    ((((compute_rows_columns stripedBoard).getD (4 / 9) default).straight_of 4).isSome = true ∧
      (((compute_rows_columns stripedBoard).getD (9 + 4 % 9) default).straight_of 4).isSome = true) :=
  ⟨straight_of_panic_unreachable.1 (Row.new (rowIndices 0) stripedBoard) 4,
   straight_of_panic_unreachable.2 stripedBoard 4 (by decide) (by decide)⟩

/-! ## The generator's result assembly (C4) -/

/-- Claim C4 (evidence of the code bug): on a solution board whose cells are
all non-fixed and hold the value 5, the result assembly of `generate_puzzle`
leaves cell 0 at value 5 — the mutation hits a discarded clone — while the
spec-modelled step clears it to -1. -/
theorem generate_puzzle_finalize_not_cleared :
    (getCell (generate_puzzle_finalize solution5Board) 0).is_fixed = false ∧
    (getCell (generate_puzzle_finalize solution5Board) 0).value = 5 ∧
    (getCell (generate_puzzle_finalize_spec solution5Board) 0).value = -1 := by
  decide

/-! ## Solver: stack lemmas and the decreasing measure -/

theorem list_getD_append_len (l : List α) (a d : α) : (l ++ [a]).getD l.length d = a := by
  rw [List.getD_eq_getElem?_getD, List.getElem?_append_right (le_refl _)]
  simp

theorem list_getD_append_lt (l t : List α) (k : Nat) (d : α) (h : k < l.length) :
    (l ++ t).getD k d = l.getD k d := by
  rw [List.getD_eq_getElem?_getD, List.getD_eq_getElem?_getD,
    List.getElem?_append_left h]

theorem list_getD_default (l : List α) (k : Nat) (d : α) (h : l.length ≤ k) :
    l.getD k d = d := by
  rw [List.getD_eq_getElem?_getD, List.getElem?_eq_none (by exact h)]
  rfl

theorem list_set_append_len (l : List α) (a b : α) :
    (l ++ [a]).set l.length b = l ++ [b] := by
  induction l with
  | nil => rfl
  | cons x l ih => simpa using ih

theorem stackMeasure_append (n : Nat) (fs : List (List Int)) (cs : List Nat)
    (f : List Int) (c : Nat) (hlen : cs.length = fs.length) :
    ∀ k, stackMeasure n k (fs ++ [f]) (cs ++ [c]) =
      stackMeasure n k fs cs + (f.length - c) * 10 ^ (n - 1 - (k + fs.length)) := by
  induction fs generalizing cs with
  | nil =>
    have hnil : cs = [] := List.length_eq_zero.mp hlen
    subst hnil
    intro k
    simp [stackMeasure]
  | cons g fs ih =>
    intro k
    cases cs with
    | nil => simp at hlen
    | cons c0 cs =>
      have hlen' : cs.length = fs.length := by simpa using hlen
      show stackMeasure n k (g :: (fs ++ [f])) (c0 :: (cs ++ [c])) =
        stackMeasure n k (g :: fs) (c0 :: cs) +
          (f.length - c) * 10 ^ (n - 1 - (k + (g :: fs).length))
      simp only [stackMeasure]
      rw [ih cs hlen' (k + 1)]
      have hexp : n - 1 - (k + 1 + fs.length) = n - 1 - (k + (g :: fs).length) := by
        simp only [List.length_cons]
        omega
      rw [hexp]
      ring

theorem list_getD_set_self (l : List α) (i : Nat) (a d : α) (h : i < l.length) :
    (l.set i a).getD i d = a := by
  rw [List.getD_eq_getElem?_getD, List.getElem?_set, if_pos rfl, if_pos h]
  rfl

theorem list_getD_set_ne (l : List α) (i k : Nat) (a d : α) (h : i ≠ k) :
    (l.set i a).getD k d = l.getD k d := by
  rw [List.getD_eq_getElem?_getD, List.getD_eq_getElem?_getD, List.getElem?_set,
    if_neg h]

theorem pushFrame_pvs (s : SolverState) (F : List Int) :
    (pushFrame s F).possible_values_stack = s.possible_values_stack ++ [F] := rfl

theorem pushFrame_idx (s : SolverState) (F : List Int) :
    (pushFrame s F).indices_stack = s.indices_stack ++ [0] := rfl

theorem pushFrame_cells (s : SolverState) (F : List Int) :
    (pushFrame s F).cells = s.cells := rfl

theorem pushFrame_i (s : SolverState) (F : List Int) :
    (pushFrame s F).i = s.i := rfl

theorem pushFrame_found (s : SolverState) (F : List Int) :
    (pushFrame s F).found_solutions = s.found_solutions := rfl

theorem missing_values_cells_length_le (R : Row) (copt : Option (List Int))
    (all_cells : List Cell) :
    (R.missing_values_cells copt all_cells).length ≤ 9 := by
  simp only [Row.missing_values_cells, List.length_map]
  calc (List.filter _ (List.range 9)).length
      ≤ (List.range 9).length := List.length_filter_le _ _
    _ = 9 := List.length_range 9

theorem possible_straight_values_cells_length_le (R : Row) (ci : Nat)
    (cs : List Int) (all_cells : List Cell) :
    (R.possible_straight_values_cells ci cs all_cells).length ≤ cs.length := by
  simp only [Row.possible_straight_values_cells]
  split
  · exact List.length_filter_le _ _
  · exact le_refl _

theorem compute_possible_values_length_le (i : Nat) (all_cells : List Cell)
    (rows_columns : List Row) :
    (compute_possible_values i all_cells rows_columns).length ≤ 9 := by
  simp only [compute_possible_values]
  split
  · exact le_trans (possible_straight_values_cells_length_le _ _ _ _)
      (le_trans (possible_straight_values_cells_length_le _ _ _ _)
        (missing_values_cells_length_le _ _ _))
  · exact missing_values_cells_length_le _ _ _

/-- Every continuing `solveStep` preserves the structural invariant and
strictly decreases the measure. -/
theorem solveStep_running_spec (rows_columns : List Row) (s s' : SolverState)
    (hinv : SolverInv s) (h : solveStep rows_columns s = StepResult.running s') :
    SolverInv s' ∧ solverMeasure s' < solverMeasure s := by
  obtain ⟨hlen, histk, hile, hstle, hcur, hcap, hfnd⟩ := hinv
  rw [solveStep] at h
  by_cases h2 : 2 ≤ s.found_solutions.length
  · rw [if_pos h2] at h
    cases h
  rw [if_neg h2] at h
  by_cases hlt : s.i < s.cells.length
  swap
  · -- the solution-recording step of the outer loop
    rw [if_neg hlt] at h
    by_cases hi0 : s.i ≠ 0
    swap
    · rw [if_neg hi0] at h
      cases h
    rw [if_pos hi0] at h
    cases h
    have hin : s.i = s.cells.length := by omega
    have hL : s.possible_values_stack.length = s.i := by omega
    refine ⟨⟨hlen, by dsimp only; exact Or.inr (by omega), by dsimp only; omega,
      by dsimp only; omega, hcur, hcap, by dsimp only; simp; omega⟩, ?_⟩
    simp only [solverMeasure, List.length_append, List.length_singleton]
    rw [if_pos (le_of_eq hL), if_neg (by simp; omega)]
    have hz : s.cells.length - s.i = 0 := by omega
    rw [hz, pow_zero]
    simp
    omega
  -- inside the inner loop
  rw [if_pos hlt] at h
  by_cases hskip : (¬(getCell s.cells s.i).is_white = true ∨
      0 < (getCell s.cells s.i).value) ∧ s.possible_values_stack.length ≤ s.i
  · -- skip-push for a black or filled cell
    rw [if_pos hskip] at h
    cases h
    have hLi : s.possible_values_stack.length = s.i := by omega
    have hlci : s.indices_stack.length = s.i := by omega
    refine ⟨⟨?_, ?_, by simp [pushFrame]; omega, ?_, ?_, ?_, by simpa using hfnd⟩, ?_⟩
    · simp [pushFrame, hlen]
    · simp only [pushFrame]
      simp
      omega
    · simp only [pushFrame]
      simp
      omega
    · intro k
      simp only [pushFrame_pvs, pushFrame_idx]
      rcases Nat.lt_trichotomy k s.i with hk | hk | hk
      · rw [list_getD_append_lt _ _ _ _ (by omega), list_getD_append_lt _ _ _ _ (by omega)]
        exact hcur k
      · subst hk
        have e1 : (s.indices_stack ++ [0]).getD s.i 0 = 0 := by
          rw [← hlci]
          exact list_getD_append_len _ _ _
        have e2 : (s.possible_values_stack ++ [[]]).getD s.i [] = [] := by
          rw [← hLi]
          exact list_getD_append_len _ _ _
        rw [e1, e2]
        simp
      · rw [list_getD_default _ _ _ (by simp; omega),
          list_getD_default _ _ _ (by simp; omega)]
        simp
    · intro f hf
      simp only [pushFrame_pvs] at hf
      rcases List.mem_append.mp hf with hf | hf
      · exact hcap f hf
      · simp at hf
        subst hf
        simp
    · -- measure
      simp only [solverMeasure, pushFrame_pvs, pushFrame_idx, pushFrame_cells,
        pushFrame_found, List.length_append, List.length_singleton]
      rw [stackMeasure_append _ _ _ _ _ hlen 0]
      rw [if_pos (by omega : s.possible_values_stack.length ≤ s.i),
        if_pos (by simp; omega : s.possible_values_stack.length + 1 ≤ s.i + 1)]
      have he1 : s.cells.length - (s.i + 1) = s.cells.length - s.i - 1 := by omega
      have he2 : 10 ^ (s.cells.length - s.i) = 10 ^ (s.cells.length - s.i - 1) * 10 := by
        rw [← pow_succ]
        congr 1
        omega
      have hp : 0 < 10 ^ (s.cells.length - s.i - 1) := Nat.pos_pow_of_pos _ (by omega)
      rw [he1, he2]
      simp
      omega
  -- the cursor check, through an optional candidate push
  rw [if_neg hskip] at h
  by_cases hpush : s.possible_values_stack.length ≤ s.i
  · -- a fresh candidate frame is computed and pushed
    rw [if_pos hpush] at h
    have hLi : s.possible_values_stack.length = s.i := by omega
    have hlci : s.indices_stack.length = s.i := by omega
    set F := compute_possible_values s.i s.cells rows_columns with hF
    rw [solveAssignOrPop, pushFrame_pvs, pushFrame_idx] at h
    have hgf : (s.possible_values_stack ++ [F]).getD s.i [] = F := by
      rw [← hLi, list_getD_append_len]
    have hgc : (s.indices_stack ++ [0]).getD s.i 0 = 0 := by
      rw [← hlci, list_getD_append_len]
    rw [hgf, hgc] at h
    by_cases hc : 0 < F.length
    · -- assign the first freshly computed candidate
      rw [if_pos hc] at h
      simp only [pushFrame_cells, pushFrame_i, pushFrame_found] at h
      cases h
      have hset : (s.indices_stack ++ [0]).set s.i (0 + 1) = s.indices_stack ++ [1] := by
        rw [← hlci]
        exact list_set_append_len _ _ _
      refine ⟨⟨?_, ?_, by simp; omega, by simp; omega, ?_, ?_, by simpa using hfnd⟩, ?_⟩
      · simp [hset, hlen]
      · simp only []
        simp
        omega
      · intro k
        simp only [hset]
        rcases Nat.lt_trichotomy k s.i with hk | hk | hk
        · rw [list_getD_append_lt _ _ _ _ (by omega), list_getD_append_lt _ _ _ _ (by omega)]
          exact hcur k
        · subst hk
          have e1 : (s.indices_stack ++ [1]).getD s.i 0 = 1 := by
            rw [← hlci]
            exact list_getD_append_len _ _ _
          have e2 : (s.possible_values_stack ++ [F]).getD s.i [] = F := by
            rw [← hLi]
            exact list_getD_append_len _ _ _
          rw [e1, e2]
          omega
        · rw [list_getD_default _ _ _ (by simp; omega),
            list_getD_default _ _ _ (by simp; omega)]
          simp
      · intro f hf
        simp only [] at hf
        rcases List.mem_append.mp hf with hf | hf
        · exact hcap f hf
        · simp at hf
          subst hf
          exact compute_possible_values_length_le _ _ _
      · -- measure: the frame costs at most 9 weights, the potential released 10
        simp only [solverMeasure, hset, List.length_append, List.length_singleton,
          List.length_set]
        rw [stackMeasure_append _ _ _ _ _ hlen 0]
        rw [if_pos (by omega : s.possible_values_stack.length ≤ s.i),
          if_pos (by omega : s.possible_values_stack.length + 1 ≤ s.i + 1)]
        have he0 : s.cells.length - 1 - (0 + s.possible_values_stack.length) =
            s.cells.length - (s.i + 1) := by omega
        have he2 : 10 ^ (s.cells.length - s.i) =
            10 ^ (s.cells.length - (s.i + 1)) * 10 := by
          rw [← pow_succ]
          congr 1
          omega
        have hp : 0 < 10 ^ (s.cells.length - (s.i + 1)) := Nat.pos_pow_of_pos _ (by omega)
        have hb : (F.length - 1) * 10 ^ (s.cells.length - (s.i + 1)) ≤
            8 * 10 ^ (s.cells.length - (s.i + 1)) :=
          Nat.mul_le_mul_right _ (by
            have hcl := compute_possible_values_length_le s.i s.cells rows_columns
            rw [← hF] at hcl
            omega)
        rw [he0, he2]
        omega
    · -- the fresh frame is empty: pop it again at once
      rw [if_neg hc] at h
      have hnum : ((s.possible_values_stack ++ [F]).getLast?.getD []).length = 0 := by
        rw [List.getLast?_concat]
        simpa using hc
      rw [hnum] at h
      rw [if_neg (by omega)] at h
      by_cases hi0 : 0 < s.i
      · rw [if_pos hi0] at h
        simp only [pushFrame_cells, pushFrame_i, pushFrame_found] at h
        cases h
        have hdf : (s.possible_values_stack ++ [F]).dropLast = s.possible_values_stack :=
          List.dropLast_concat
        have hdc : (s.indices_stack ++ [0]).dropLast = s.indices_stack :=
          List.dropLast_concat
        refine ⟨⟨?_, ?_, ?_, ?_, ?_, ?_, hfnd⟩, ?_⟩
        · show ((s.indices_stack ++ [0]).dropLast).length =
            ((s.possible_values_stack ++ [F]).dropLast).length
          rw [hdf, hdc, hlen]
        · exact Or.inr (show ((s.possible_values_stack ++ [F]).dropLast).length =
            s.i - 1 + 1 by rw [hdf]; omega)
        · show s.i - 1 ≤ s.cells.length
          omega
        · show ((s.possible_values_stack ++ [F]).dropLast).length ≤ s.cells.length
          rw [hdf]
          omega
        · intro k
          show ((s.indices_stack ++ [0]).dropLast).getD k 0 ≤
            (((s.possible_values_stack ++ [F]).dropLast).getD k []).length
          rw [hdf, hdc]
          exact hcur k
        · intro g hg
          rw [show ((s.possible_values_stack ++ [F]).dropLast) = s.possible_values_stack
            from hdf] at hg
          exact hcap g hg
        · show solverMeasure _ < solverMeasure s
          simp only [solverMeasure, hdf, hdc]
          rw [if_pos (by omega : s.possible_values_stack.length ≤ s.i),
            if_neg (by omega : ¬s.possible_values_stack.length ≤ s.i - 1)]
          have hgt : 1 < 10 ^ (s.cells.length - s.i) := by
            calc 1 < 10 ^ 1 := by omega
            _ ≤ 10 ^ (s.cells.length - s.i) := Nat.pow_le_pow_right (by omega) (by omega)
          omega
      · rw [if_neg hi0] at h
        cases h
  · -- the frame of cell `i` already exists: plain cursor check
    rw [if_neg hpush] at h
    have hLi : s.possible_values_stack.length = s.i + 1 := by omega
    have hlci : s.indices_stack.length = s.i + 1 := by omega
    have hfne : s.possible_values_stack ≠ [] := by
      intro hnil
      rw [hnil] at hLi
      simp at hLi
    have hcne : s.indices_stack ≠ [] := by
      intro hnil
      rw [hnil] at hlci
      simp at hlci
    set f := s.possible_values_stack.getLast hfne with hfdef
    set c := s.indices_stack.getLast hcne with hcdef
    have hfs : s.possible_values_stack = s.possible_values_stack.dropLast ++ [f] :=
      (List.dropLast_append_getLast hfne).symm
    have hcs : s.indices_stack = s.indices_stack.dropLast ++ [c] :=
      (List.dropLast_append_getLast hcne).symm
    have hfsl : s.possible_values_stack.dropLast.length = s.i := by
      rw [List.length_dropLast]
      omega
    have hcsl : s.indices_stack.dropLast.length = s.i := by
      rw [List.length_dropLast]
      omega
    have hgf : s.possible_values_stack.getD s.i [] = f := by
      rw [hfs, ← hfsl, list_getD_append_len]
    have hgc : s.indices_stack.getD s.i 0 = c := by
      rw [hcs, ← hcsl, list_getD_append_len]
    rw [solveAssignOrPop, hgf, hgc] at h
    by_cases hc : c < f.length
    · -- assign the next candidate of the existing frame
      rw [if_pos hc] at h
      cases h
      have hset : s.indices_stack.set s.i (c + 1) =
          s.indices_stack.dropLast ++ [c + 1] := by
        conv_lhs => rw [hcs]
        rw [← hcsl]
        exact list_set_append_len _ _ _
      refine ⟨⟨?_, ?_, ?_, ?_, ?_, hcap, hfnd⟩, ?_⟩
      · show (s.indices_stack.set s.i (c + 1)).length = s.possible_values_stack.length
        rw [List.length_set]
        exact hlen
      · exact Or.inl (show s.possible_values_stack.length = s.i + 1 from hLi)
      · show s.i + 1 ≤ (s.cells.set s.i _).length
        rw [List.length_set]
        omega
      · show s.possible_values_stack.length ≤ (s.cells.set s.i _).length
        rw [List.length_set]
        omega
      · intro k
        show (s.indices_stack.set s.i (c + 1)).getD k 0 ≤
          (s.possible_values_stack.getD k []).length
        rw [hset]
        rcases Nat.lt_trichotomy k s.i with hk | hk | hk
        · rw [list_getD_append_lt _ _ _ _ (by omega)]
          have hck := hcur k
          rw [hcs, list_getD_append_lt _ _ _ _ (by omega)] at hck
          exact hck
        · subst hk
          have e1 : (s.indices_stack.dropLast ++ [c + 1]).getD s.i 0 = c + 1 := by
            rw [← hcsl]
            exact list_getD_append_len _ _ _
          rw [e1, hgf]
          omega
        · rw [list_getD_default _ _ _ (by simp; omega),
            list_getD_default _ _ _ (by omega)]
          simp
      · -- measure
        simp only [solverMeasure, hset, List.length_append, List.length_singleton,
          List.length_set]
        conv_lhs => rw [hfs]
        conv_rhs => rw [hfs, hcs]
        rw [stackMeasure_append _ _ _ _ _ (by rw [hfsl, hcsl]) 0,
          stackMeasure_append _ _ _ _ _ (by rw [hfsl, hcsl]) 0]
        rw [if_pos (by simp only [List.length_append, List.length_singleton, hfsl]; omega :
            (s.possible_values_stack.dropLast ++ [f]).length ≤ s.i + 1),
          if_neg (by simp only [List.length_append, List.length_singleton, hfsl]; omega :
            ¬(s.possible_values_stack.dropLast ++ [f]).length ≤ s.i)]
        rw [hfsl]
        have he0 : s.cells.length - 1 - (0 + s.i) = s.cells.length - (s.i + 1) := by omega
        rw [he0]
        have hp : 0 < 10 ^ (s.cells.length - (s.i + 1)) := Nat.pos_pow_of_pos _ (by omega)
        have hsplit : (f.length - c) * 10 ^ (s.cells.length - (s.i + 1)) =
            (f.length - (c + 1)) * 10 ^ (s.cells.length - (s.i + 1)) +
              10 ^ (s.cells.length - (s.i + 1)) := by
          have hfc : f.length - c = (f.length - (c + 1)) + 1 := by omega
          rw [hfc, Nat.add_mul, one_mul]
        rw [hsplit]
        simp only [List.length_append, List.length_singleton, List.length_dropLast]
        omega
    · -- exhausted frame: pop it, clear the cell when it was non-empty
      rw [if_neg hc] at h
      have hnum : (s.possible_values_stack.getLast?.getD []).length = f.length := by
        conv_lhs => rw [hfs]
        rw [List.getLast?_concat]
        rfl
      rw [hnum] at h
      have hcfl : c = f.length := by
        have := hcur s.i
        rw [hgf, hgc] at this
        omega
      have hSM : stackMeasure s.cells.length 0 s.possible_values_stack s.indices_stack =
          stackMeasure s.cells.length 0 s.possible_values_stack.dropLast
            s.indices_stack.dropLast := by
        conv_lhs => rw [hfs, hcs]
        rw [stackMeasure_append _ _ _ _ _ (by rw [hfsl, hcsl]) 0, hcfl]
        simp
      have hcurd : ∀ k, (s.indices_stack.dropLast).getD k 0 ≤
          ((s.possible_values_stack.dropLast).getD k []).length := by
        intro k
        by_cases hk : k < s.i
        · have hck := hcur k
          rw [hfs, list_getD_append_lt _ _ _ _ (by omega)] at hck
          rw [hcs, list_getD_append_lt _ _ _ _ (by omega)] at hck
          exact hck
        · rw [list_getD_default _ _ _ (by omega), list_getD_default _ _ _ (by omega)]
          simp
      by_cases hnp : 0 < f.length
      · rw [if_pos hnp] at h
        by_cases hi0 : 0 < s.i
        · rw [if_pos hi0] at h
          cases h
          refine ⟨⟨?_, ?_, ?_, ?_, hcurd, ?_, hfnd⟩, ?_⟩
          · show (s.indices_stack.dropLast).length = (s.possible_values_stack.dropLast).length
            rw [List.length_dropLast, List.length_dropLast, hlen]
          · exact Or.inr (show s.possible_values_stack.dropLast.length = s.i - 1 + 1 by
              rw [hfsl]; omega)
          · show s.i - 1 ≤ (s.cells.set s.i _).length
            rw [List.length_set]
            omega
          · show s.possible_values_stack.dropLast.length ≤ (s.cells.set s.i _).length
            rw [List.length_set, hfsl]
            omega
          · intro g hg
            exact hcap g (List.mem_of_mem_dropLast hg)
          · show solverMeasure _ < solverMeasure s
            simp only [solverMeasure, List.length_set, List.length_dropLast]
            rw [← hSM]
            rw [if_neg (by omega : ¬s.possible_values_stack.length - 1 ≤ s.i - 1),
              if_neg (by omega : ¬s.possible_values_stack.length ≤ s.i)]
            omega
        · rw [if_neg hi0] at h
          cases h
      · rw [if_neg hnp] at h
        by_cases hi0 : 0 < s.i
        · rw [if_pos hi0] at h
          cases h
          refine ⟨⟨?_, ?_, ?_, ?_, hcurd, ?_, hfnd⟩, ?_⟩
          · show (s.indices_stack.dropLast).length = (s.possible_values_stack.dropLast).length
            rw [List.length_dropLast, List.length_dropLast, hlen]
          · exact Or.inr (show s.possible_values_stack.dropLast.length = s.i - 1 + 1 by
              rw [hfsl]; omega)
          · show s.i - 1 ≤ s.cells.length
            omega
          · show s.possible_values_stack.dropLast.length ≤ s.cells.length
            rw [hfsl]
            omega
          · intro g hg
            exact hcap g (List.mem_of_mem_dropLast hg)
          · show solverMeasure _ < solverMeasure s
            simp only [solverMeasure, List.length_dropLast]
            rw [← hSM]
            rw [if_neg (by omega : ¬s.possible_values_stack.length - 1 ≤ s.i - 1),
              if_neg (by omega : ¬s.possible_values_stack.length ≤ s.i)]
            omega
        · rw [if_neg hi0] at h
          cases h

/-! ## Solver: frame effect (C9) -/

theorem getCell_set_self (cur : List Cell) (i : Nat) (x : Cell) (h : i < cur.length) :
    getCell (cur.set i x) i = x := by
  unfold getCell
  exact list_getD_set_self cur i x _ h

theorem getCell_set_ne (cur : List Cell) (i k : Nat) (x : Cell) (h : i ≠ k) :
    getCell (cur.set i x) k = getCell cur k := by
  unfold getCell
  exact list_getD_set_ne cur i k x _ h

theorem getCell_default (l : List Cell) (k : Nat) (h : l.length ≤ k) :
    getCell l k = default := by
  unfold getCell
  exact list_getD_default l k _ h

theorem ProtectedEq_refl (b : List Cell) : ProtectedEq b b :=
  ⟨rfl, fun _ => ⟨rfl, rfl, rfl⟩, fun _ _ => rfl⟩

theorem ProtectedEq_set (b cur : List Cell) (i : Nat) (v : Int)
    (hP : ProtectedEq b cur) (hw : (getCell b i).is_white = true)
    (hv : (getCell b i).value ≤ 0) :
    ProtectedEq b (cur.set i { getCell cur i with value := v }) := by
  obtain ⟨hlen, hfields, hprot⟩ := hP
  refine ⟨by rw [List.length_set]; exact hlen, ?_, ?_⟩
  · intro k
    by_cases hk : i = k
    · subst hk
      by_cases hkl : i < cur.length
      · rw [getCell_set_self cur i _ hkl]
        exact hfields i
      · rw [List.set_eq_of_length_le (by omega)]
        exact hfields i
    · rw [getCell_set_ne cur i k _ hk]
      exact hfields k
  · intro k hpk
    by_cases hk : i = k
    · subst hk
      rcases hpk with hpk | hpk
      · rw [hw] at hpk
        simp at hpk
      · omega
    · rw [getCell_set_ne cur i k _ hk]
      exact hprot k hpk

theorem getD_append_ne_nil (fs : List (List Int)) (F : List Int) (k : Nat)
    (h : (fs ++ [F]).getD k [] ≠ []) :
    fs.getD k [] ≠ [] ∨ (k = fs.length ∧ F ≠ []) := by
  rcases Nat.lt_trichotomy k fs.length with hk | hk | hk
  · rw [list_getD_append_lt _ _ _ _ hk] at h
    exact Or.inl h
  · subst hk
    rw [list_getD_append_len] at h
    exact Or.inr ⟨rfl, h⟩
  · rw [list_getD_default _ _ _ (by simp; omega)] at h
    exact absurd rfl h

theorem getD_dropLast_ne_nil (fs : List (List Int)) (k : Nat)
    (h : fs.dropLast.getD k [] ≠ []) : fs.getD k [] ≠ [] := by
  rcases eq_or_ne fs [] with rfl | hne
  · simp at h
  · have hfs : fs = fs.dropLast ++ [fs.getLast hne] :=
      (List.dropLast_append_getLast hne).symm
    by_cases hk : k < fs.dropLast.length
    · intro hnil
      apply h
      have he : fs.dropLast.getD k [] = fs.getD k [] := by
        conv_rhs => rw [hfs]
        rw [list_getD_append_lt _ _ _ _ hk]
      rw [he]
      exact hnil
    · rw [list_getD_default _ _ _ (by omega)] at h
      exact absurd rfl h

theorem list_getD_dropLast_lt (l : List α) (k : Nat) (d : α) (h : k + 1 < l.length) :
    l.dropLast.getD k d = l.getD k d := by
  have hne : l ≠ [] := by
    intro h0
    rw [h0] at h
    simp at h
  conv_rhs => rw [← List.dropLast_append_getLast hne]
  rw [list_getD_append_lt]
  rw [List.length_dropLast]
  omega

theorem resultOf_mem (found : List (List Cell)) (w : List Cell)
    (h : resultOf found = Str8tsSolution.Unique w ∨
      resultOf found = Str8tsSolution.Multiple w) : w ∈ found := by
  rcases found with _ | ⟨a, _ | ⟨c, t⟩⟩
  · rcases h with h | h <;> cases h
  · rcases h with h | h
    · injection h with h1
      subst h1
      simp
    · cases h
  · rcases h with h | h
    · cases h
    · injection h with h1
      subst h1
      simp

theorem solveStep_finished_eq (rows_columns : List Row) (s : SolverState)
    (r : Str8tsSolution) (h : solveStep rows_columns s = StepResult.finished r) :
    r = resultOf s.found_solutions := by
  rw [solveStep] at h
  by_cases h2 : 2 ≤ s.found_solutions.length
  · rw [if_pos h2] at h
    injection h with h1
    exact h1.symm
  rw [if_neg h2] at h
  by_cases hlt : s.i < s.cells.length
  swap
  · rw [if_neg hlt] at h
    by_cases hi0 : s.i ≠ 0
    · rw [if_pos hi0] at h
      cases h
    · rw [if_neg hi0] at h
      injection h with h1
      exact h1.symm
  rw [if_pos hlt] at h
  by_cases hskip : (¬(getCell s.cells s.i).is_white = true ∨
      0 < (getCell s.cells s.i).value) ∧ s.possible_values_stack.length ≤ s.i
  · rw [if_pos hskip] at h
    cases h
  rw [if_neg hskip] at h
  by_cases hpush : s.possible_values_stack.length ≤ s.i
  · rw [if_pos hpush, solveAssignOrPop] at h
    split at h
    · cases h
    · split at h
      · split at h
        · cases h
        · injection h with h1
          exact h1.symm
      · split at h
        · cases h
        · injection h with h1
          exact h1.symm
  · rw [if_neg hpush, solveAssignOrPop] at h
    split at h
    · cases h
    · split at h
      · split at h
        · cases h
        · injection h with h1
          exact h1.symm
      · split at h
        · cases h
        · injection h with h1
          exact h1.symm

theorem solveStep_frameInv (rows_columns : List Row) (b : List Cell) (s s' : SolverState)
    (hinv : SolverInv s) (hfr : FrameInv b s)
    (h : solveStep rows_columns s = StepResult.running s') : FrameInv b s' := by
  obtain ⟨hlen, histk, hile, hstle, hcur, hcap, hfnd⟩ := hinv
  obtain ⟨hframes, hPE, hsols⟩ := hfr
  rw [solveStep] at h
  by_cases h2 : 2 ≤ s.found_solutions.length
  · rw [if_pos h2] at h
    cases h
  rw [if_neg h2] at h
  by_cases hlt : s.i < s.cells.length
  swap
  · rw [if_neg hlt] at h
    by_cases hi0 : s.i ≠ 0
    swap
    · rw [if_neg hi0] at h
      cases h
    rw [if_pos hi0] at h
    cases h
    refine ⟨hframes, hPE, ?_⟩
    intro w hw
    rcases List.mem_append.mp hw with hw | hw
    · exact hsols w hw
    · rw [List.mem_singleton] at hw
      subst hw
      exact hPE
  rw [if_pos hlt] at h
  by_cases hskip : (¬(getCell s.cells s.i).is_white = true ∨
      0 < (getCell s.cells s.i).value) ∧ s.possible_values_stack.length ≤ s.i
  · rw [if_pos hskip] at h
    cases h
    refine ⟨?_, hPE, hsols⟩
    intro k hk
    rcases getD_append_ne_nil s.possible_values_stack [] k hk with hk' | ⟨-, hne⟩
    · exact hframes k hk'
    · exact absurd rfl hne
  rw [if_neg hskip] at h
  by_cases hpush : s.possible_values_stack.length ≤ s.i
  · rw [if_pos hpush] at h
    have hLi : s.possible_values_stack.length = s.i := by omega
    have hlci : s.indices_stack.length = s.i := by omega
    set F := compute_possible_values s.i s.cells rows_columns with hF
    have hwb : (getCell b s.i).is_white = true ∧ (getCell b s.i).value ≤ 0 := by
      have hA : ¬(¬(getCell s.cells s.i).is_white = true ∨
          0 < (getCell s.cells s.i).value) := fun hA => hskip ⟨hA, hpush⟩
      push_neg at hA
      obtain ⟨hAw, hAv⟩ := hA
      obtain ⟨hlenPE, hfieldsPE, hprotPE⟩ := hPE
      have hw1 : (getCell b s.i).is_white = true := by
        rw [← (hfieldsPE s.i).1]
        exact hAw
      refine ⟨hw1, ?_⟩
      by_contra hvb
      push_neg at hvb
      have heq := hprotPE s.i (Or.inr hvb)
      rw [heq] at hAv
      omega
    rw [solveAssignOrPop, pushFrame_pvs, pushFrame_idx] at h
    have hgf : (s.possible_values_stack ++ [F]).getD s.i [] = F := by
      rw [← hLi, list_getD_append_len]
    have hgc : (s.indices_stack ++ [0]).getD s.i 0 = 0 := by
      rw [← hlci, list_getD_append_len]
    rw [hgf, hgc] at h
    by_cases hc : 0 < F.length
    · rw [if_pos hc] at h
      simp only [pushFrame_cells, pushFrame_i, pushFrame_found] at h
      cases h
      refine ⟨?_, ?_, hsols⟩
      · intro k hk
        rcases getD_append_ne_nil s.possible_values_stack F k hk with hk' | ⟨hkeq, -⟩
        · exact hframes k hk'
        · subst hkeq
          rw [hLi]
          exact hwb
      · exact ProtectedEq_set b s.cells s.i _ hPE hwb.1 hwb.2
    · rw [if_neg hc] at h
      have hnum : ((s.possible_values_stack ++ [F]).getLast?.getD []).length = 0 := by
        rw [List.getLast?_concat]
        simpa using hc
      rw [hnum] at h
      rw [if_neg (by omega)] at h
      by_cases hi0 : 0 < s.i
      · rw [if_pos hi0] at h
        simp only [pushFrame_cells, pushFrame_i, pushFrame_found] at h
        cases h
        refine ⟨?_, hPE, hsols⟩
        intro k hk
        have hk2 := getD_dropLast_ne_nil (s.possible_values_stack ++ [F]) k hk
        rcases getD_append_ne_nil s.possible_values_stack F k hk2 with hk' | ⟨-, hne⟩
        · exact hframes k hk'
        · exact absurd (List.length_eq_zero.mp (by omega)) hne
      · rw [if_neg hi0] at h
        cases h
  · rw [if_neg hpush] at h
    have hLi : s.possible_values_stack.length = s.i + 1 := by omega
    have hlci : s.indices_stack.length = s.i + 1 := by omega
    have hfne : s.possible_values_stack ≠ [] := by
      intro hnil
      rw [hnil] at hLi
      simp at hLi
    have hcne : s.indices_stack ≠ [] := by
      intro hnil
      rw [hnil] at hlci
      simp at hlci
    set f := s.possible_values_stack.getLast hfne with hfdef
    set c := s.indices_stack.getLast hcne with hcdef
    have hfs : s.possible_values_stack = s.possible_values_stack.dropLast ++ [f] :=
      (List.dropLast_append_getLast hfne).symm
    have hcs : s.indices_stack = s.indices_stack.dropLast ++ [c] :=
      (List.dropLast_append_getLast hcne).symm
    have hfsl : s.possible_values_stack.dropLast.length = s.i := by
      rw [List.length_dropLast]
      omega
    have hcsl : s.indices_stack.dropLast.length = s.i := by
      rw [List.length_dropLast]
      omega
    have hgf : s.possible_values_stack.getD s.i [] = f := by
      rw [hfs, ← hfsl, list_getD_append_len]
    have hgc : s.indices_stack.getD s.i 0 = c := by
      rw [hcs, ← hcsl, list_getD_append_len]
    rw [solveAssignOrPop, hgf, hgc] at h
    by_cases hc : c < f.length
    · rw [if_pos hc] at h
      cases h
      have hfne2 : f ≠ [] := by
        intro hnil
        rw [hnil] at hc
        simp at hc
      have hwb := hframes s.i (by rw [hgf]; exact hfne2)
      exact ⟨hframes, ProtectedEq_set b s.cells s.i _ hPE hwb.1 hwb.2, hsols⟩
    · rw [if_neg hc] at h
      have hnum : (s.possible_values_stack.getLast?.getD []).length = f.length := by
        conv_lhs => rw [hfs]
        rw [List.getLast?_concat]
        rfl
      rw [hnum] at h
      by_cases hnp : 0 < f.length
      · rw [if_pos hnp] at h
        by_cases hi0 : 0 < s.i
        · rw [if_pos hi0] at h
          cases h
          have hwb := hframes s.i (by
            rw [hgf]
            intro hnil
            rw [hnil] at hnp
            simp at hnp)
          refine ⟨?_, ProtectedEq_set b s.cells s.i _ hPE hwb.1 hwb.2, hsols⟩
          intro k hk
          exact hframes k (getD_dropLast_ne_nil s.possible_values_stack k hk)
        · rw [if_neg hi0] at h
          cases h
      · rw [if_neg hnp] at h
        by_cases hi0 : 0 < s.i
        · rw [if_pos hi0] at h
          cases h
          refine ⟨?_, hPE, hsols⟩
          intro k hk
          exact hframes k (getD_dropLast_ne_nil s.possible_values_stack k hk)
        · rw [if_neg hi0] at h
          cases h

theorem initState_inv (cells : List Cell) : SolverInv (initState cells) := by
  refine ⟨rfl, Or.inl rfl, ?_, ?_, ?_, ?_, ?_⟩
  · simp [initState]
  · simp [initState]
  · intro k
    simp [initState]
  · intro f hf
    simp [initState] at hf
  · simp [initState]

theorem initState_frameInv (cells : List Cell) : FrameInv cells (initState cells) := by
  refine ⟨?_, ProtectedEq_refl cells, ?_⟩
  · intro k hk
    simp [initState] at hk
  · intro w hw
    simp [initState] at hw

theorem solveRun_succeeds (rc : List Row) :
    ∀ fuel s, SolverInv s → solverMeasure s < fuel →
      ∃ r, solveRun rc fuel s = some r := by
  intro fuel
  induction fuel with
  | zero =>
    intro s _ hm
    omega
  | succ fuel ih =>
    intro s hinv hm
    cases hstep : solveStep rc s with
    | finished r =>
      exact ⟨r, by rw [solveRun, hstep]⟩
    | running s' =>
      obtain ⟨hinv', hdec⟩ := solveStep_running_spec rc s s' hinv hstep
      obtain ⟨r, hr⟩ := ih s' hinv' (by omega)
      exact ⟨r, by rw [solveRun, hstep]; exact hr⟩

theorem solve_backtrack_run (cells : List Cell) :
    solveRun (compute_rows_columns cells) (solverMeasure (initState cells) + 1)
      (initState cells) = some (solve_backtrack cells) := by
  obtain ⟨r, hr⟩ := solveRun_succeeds (compute_rows_columns cells)
    (solverMeasure (initState cells) + 1) (initState cells) (initState_inv cells)
    (by omega)
  rw [hr, solve_backtrack, hr]
  rfl

theorem solveRun_frameInv (rc : List Row) (b : List Cell) :
    ∀ fuel s r, SolverInv s → FrameInv b s → solveRun rc fuel s = some r →
      ∀ w, r = Str8tsSolution.Unique w ∨ r = Str8tsSolution.Multiple w →
        ProtectedEq b w := by
  intro fuel
  induction fuel with
  | zero =>
    intro s r _ _ hrun
    cases hrun
  | succ fuel ih =>
    intro s r hinv hfr hrun w hw
    cases hstep : solveStep rc s with
    | finished res =>
      obtain ⟨-, -, hsols⟩ := hfr
      rw [solveRun, hstep] at hrun
      injection hrun with hres
      subst hres
      rw [solveStep_finished_eq rc s res hstep] at hw
      exact hsols w (resultOf_mem s.found_solutions w hw)
    | running s' =>
      rw [solveRun, hstep] at hrun
      exact ih s' r (solveStep_running_spec rc s s' hinv hstep).1
        (solveStep_frameInv rc b s s' hinv hfr hstep) hrun w hw

/-- Claim C9: `solve_backtrack` never alters a protected cell — in any witness
board returned inside `Unique` or `Multiple`, every cell that is black or that
initially holds a value greater than zero carries exactly its input cell
(value, color, fixed flag and pencil marks), and all cells keep their input
color, fixed flag and pencil marks. -/
theorem solve_backtrack_preserves_protected (cells w : List Cell)
    (h : solve_backtrack cells = Str8tsSolution.Unique w ∨
      solve_backtrack cells = Str8tsSolution.Multiple w) :
    ProtectedEq cells w :=
  solveRun_frameInv (compute_rows_columns cells) cells
    (solverMeasure (initState cells) + 1) (initState cells) (solve_backtrack cells)
    (initState_inv cells) (initState_frameInv cells) (solve_backtrack_run cells)
    w h

/-- Witness for C9: on the one-cell board with a filled black cell, the solver
reports a unique solution and returns the cell untouched. -/
theorem solve_backtrack_preserves_protected_witness :
    solve_backtrack frameDemoBoard = Str8tsSolution.Unique frameDemoBoard ∧
    ProtectedEq frameDemoBoard frameDemoBoard :=
  ⟨by decide,
   solve_backtrack_preserves_protected frameDemoBoard frameDemoBoard
     (Or.inl (by decide))⟩

/-! ## Boards as functions of their cells, and the board seen at each stack level -/

theorem list_eq_of_getCell (X Y : List Cell) (hlen : X.length = Y.length)
    (h : ∀ k, getCell X k = getCell Y k) : X = Y := by
  apply List.ext_getElem hlen
  intro k h1 h2
  have hk := h k
  unfold getCell at hk
  rw [List.getD_eq_getElem?_getD, List.getD_eq_getElem?_getD,
    List.getElem?_eq_getElem h1, List.getElem?_eq_getElem h2] at hk
  simpa using hk

theorem boardUpTo_length (t : Nat) (b cur : List Cell) :
    (boardUpTo t b cur).length = b.length := by
  simp [boardUpTo]

theorem getCell_boardUpTo (t : Nat) (b cur : List Cell) (hlen : cur.length = b.length)
    (k : Nat) :
    getCell (boardUpTo t b cur) k = if k < t then getCell cur k else getCell b k := by
  by_cases hk : k < b.length
  · show (boardUpTo t b cur).getD k default = _
    rw [boardUpTo, List.getD_eq_getElem?_getD, List.getElem?_map,
      List.getElem?_range hk]
    rfl
  · rw [getCell_default _ _ (by rw [boardUpTo_length]; omega),
      getCell_default b k (by omega), getCell_default cur k (by omega)]
    split <;> rfl

theorem boardUpTo_zero (b cur : List Cell) (hlen : cur.length = b.length) :
    boardUpTo 0 b cur = b := by
  apply list_eq_of_getCell _ _ (boardUpTo_length 0 b cur)
  intro k
  rw [getCell_boardUpTo 0 b cur hlen k]
  simp

theorem boardUpTo_eq_self (t : Nat) (b cur : List Cell) (hlen : cur.length = b.length)
    (hup : ∀ k, t ≤ k → getCell cur k = getCell b k) :
    boardUpTo t b cur = cur := by
  apply list_eq_of_getCell _ _ (by rw [boardUpTo_length]; omega)
  intro k
  rw [getCell_boardUpTo t b cur hlen k]
  split
  · rfl
  · exact (hup k (by omega)).symm

theorem boardUpTo_succ_eq (t : Nat) (b cur : List Cell) (hlen : cur.length = b.length)
    (h : getCell cur t = getCell b t) :
    boardUpTo (t + 1) b cur = boardUpTo t b cur := by
  apply list_eq_of_getCell _ _ (by rw [boardUpTo_length, boardUpTo_length])
  intro k
  rw [getCell_boardUpTo _ b cur hlen k, getCell_boardUpTo _ b cur hlen k]
  by_cases hk : k = t
  · subst hk
    rw [if_pos (by omega)]
    split
    · rfl
    · exact h
  · by_cases hk2 : k < t
    · rw [if_pos (by omega), if_pos hk2]
    · rw [if_neg (by omega), if_neg hk2]

theorem boardUpTo_succ_eq_set (t : Nat) (b cur : List Cell) (hlen : cur.length = b.length)
    (ht : t < b.length) (x : Cell) (hx : getCell cur t = x) :
    boardUpTo (t + 1) b cur = (boardUpTo t b cur).set t x := by
  apply list_eq_of_getCell _ _ (by rw [boardUpTo_length, List.length_set, boardUpTo_length])
  intro k
  by_cases hk : k = t
  · subst hk
    rw [getCell_set_self _ _ _ (by rw [boardUpTo_length]; omega),
      getCell_boardUpTo _ b cur hlen k, if_pos (by omega), hx]
  · rw [getCell_set_ne _ t k _ (fun he => hk he.symm),
      getCell_boardUpTo _ b cur hlen k, getCell_boardUpTo _ b cur hlen k]
    by_cases hk2 : k < t
    · rw [if_pos (by omega), if_pos hk2]
    · rw [if_neg (by omega), if_neg hk2]

theorem int_min?_eq_some_iff (l : List Int) (a : Int) :
    l.min? = some a ↔ a ∈ l ∧ ∀ b ∈ l, a ≤ b := by
  haveI : Std.Antisymm (fun (x y : Int) => x ≤ y) := ⟨fun h1 h2 => le_antisymm h1 h2⟩
  exact List.min?_eq_some_iff le_refl min_choice (fun _ _ _ => le_min_iff)

theorem int_max?_eq_some_iff (l : List Int) (a : Int) :
    l.max? = some a ↔ a ∈ l ∧ ∀ b ∈ l, b ≤ a := by
  haveI : Std.Antisymm (fun (x y : Int) => x ≤ y) := ⟨fun h1 h2 => le_antisymm h1 h2⟩
  exact List.max?_eq_some_iff le_refl max_choice (fun _ _ _ => max_le_iff)

theorem int_min?_middle (pre post : List Int) (v mn : Int)
    (h : (pre ++ post).min? = some mn) :
    (pre ++ v :: post).min? = some (min v mn) := by
  rw [int_min?_eq_some_iff] at h ⊢
  obtain ⟨hmem, hle⟩ := h
  constructor
  · rcases le_total v mn with hc | hc
    · rw [min_eq_left hc]
      simp
    · rw [min_eq_right hc]
      rcases List.mem_append.mp hmem with hm | hm
      · exact List.mem_append.mpr (Or.inl hm)
      · exact List.mem_append.mpr (Or.inr (List.mem_cons_of_mem _ hm))
  · intro x hx
    rcases List.mem_append.mp hx with hm | hm
    · exact le_trans (min_le_right _ _) (hle x (List.mem_append.mpr (Or.inl hm)))
    · rcases List.mem_cons.mp hm with hm | hm
      · subst hm
        exact min_le_left _ _
      · exact le_trans (min_le_right _ _) (hle x (List.mem_append.mpr (Or.inr hm)))

theorem int_max?_middle (pre post : List Int) (v mx : Int)
    (h : (pre ++ post).max? = some mx) :
    (pre ++ v :: post).max? = some (max v mx) := by
  rw [int_max?_eq_some_iff] at h ⊢
  obtain ⟨hmem, hle⟩ := h
  constructor
  · rcases le_total v mx with hc | hc
    · rw [max_eq_right hc]
      rcases List.mem_append.mp hmem with hm | hm
      · exact List.mem_append.mpr (Or.inl hm)
      · exact List.mem_append.mpr (Or.inr (List.mem_cons_of_mem _ hm))
    · rw [max_eq_left hc]
      simp
  · intro x hx
    rcases List.mem_append.mp hx with hm | hm
    · exact le_trans (hle x (List.mem_append.mpr (Or.inl hm))) (le_max_right _ _)
    · rcases List.mem_cons.mp hm with hm | hm
      · subst hm
        exact le_max_left _ _
      · exact le_trans (hle x (List.mem_append.mpr (Or.inr hm))) (le_max_right _ _)

theorem filledValues_append (S1 S2 : List Nat) (cells : List Cell) :
    filledValues (S1 ++ S2) cells = filledValues S1 cells ++ filledValues S2 cells := by
  simp [filledValues, List.filter_append]

theorem filledValues_cons (i : Nat) (S : List Nat) (cells : List Cell) :
    filledValues (i :: S) cells =
      if 0 < (getCell cells i).value then
        (getCell cells i).value :: filledValues S cells
      else filledValues S cells := by
  by_cases h : 0 < (getCell cells i).value
  · rw [if_pos h]
    simp [filledValues, h]
  · rw [if_neg h]
    simp [filledValues, h]

theorem filledValues_congr (S : List Nat) (X Y : List Cell)
    (h : ∀ i ∈ S, getCell X i = getCell Y i) :
    filledValues S X = filledValues S Y := by
  unfold filledValues
  rw [List.map_congr_left (fun i hi => by rw [h i hi])]

theorem mem_filledValues (S : List Nat) (cells : List Cell) (v : Int) :
    v ∈ filledValues S cells ↔ ∃ i ∈ S, (getCell cells i).value = v ∧ 0 < v := by
  simp only [filledValues, List.mem_filter, List.mem_map, decide_eq_true_eq]
  constructor
  · rintro ⟨⟨i, hi, rfl⟩, hp⟩
    exact ⟨i, hi, rfl, hp⟩
  · rintro ⟨i, hi, rfl, hp⟩
    exact ⟨⟨i, hi, rfl⟩, hp⟩

theorem mem_nodup_split (S : List Nat) (t : Nat) (hmem : t ∈ S) (hnd : S.Nodup) :
    ∃ S1 S2, S = S1 ++ t :: S2 ∧ t ∉ S1 ∧ t ∉ S2 := by
  obtain ⟨S1, S2, rfl⟩ := List.append_of_mem hmem
  rw [List.nodup_append] at hnd
  obtain ⟨h1, h2, hdisj⟩ := hnd
  rw [List.nodup_cons] at h2
  exact ⟨S1, S2, rfl, fun hc => hdisj hc (by simp), h2.1⟩

theorem new_straight_nodup (row_cells : List Nat) (all_cells : List Cell)
    (hnd : row_cells.Nodup) (S : List Nat)
    (hS : S ∈ (Row.new row_cells all_cells).straights) : S.Nodup := by
  have hne : S ≠ [] := by
    obtain ⟨-, hlen⟩ := List.mem_filter.mp hS
    exact List.ne_nil_of_length_pos (by simpa using hlen)
  obtain ⟨l₁, l₂, hdec, -, -⟩ :=
    splitP_chunk_decomp (fun i => !(getCell all_cells i).is_white)
      row_cells.length row_cells le_rfl S (List.mem_of_mem_filter hS) hne
  have hsub : S.Sublist row_cells := by
    rw [hdec, List.append_assoc]
    exact (List.sublist_append_left S l₂).trans (List.sublist_append_right l₁ (S ++ l₂))
  exact hnd.sublist hsub

theorem psvc_subset (R : Row) (ci : Nat) (cand : List Int) (cells : List Cell) :
    ∀ v ∈ R.possible_straight_values_cells ci cand cells, v ∈ cand := by
  intro v hv
  simp only [Row.possible_straight_values_cells] at hv
  split at hv
  · exact (List.mem_filter.mp hv).1
  · exact hv

theorem psvc_eq_of_none (R : Row) (ci : Nat) (cand : List Int) (cells : List Cell)
    (h : filledValues ((R.straight_of ci).getD []) cells = []) :
    R.possible_straight_values_cells ci cand cells = cand := by
  simp only [Row.possible_straight_values_cells]
  rw [h]
  rfl

theorem psvc_eq_filter (R : Row) (ci : Nat) (cand : List Int) (cells : List Cell)
    (mn mx : Int)
    (hmn : (filledValues ((R.straight_of ci).getD []) cells).min? = some mn)
    (hmx : (filledValues ((R.straight_of ci).getD []) cells).max? = some mx) :
    R.possible_straight_values_cells ci cand cells =
      cand.filter (fun v =>
        (mn < v && v < mx) ||
        (v < mn && mx - v < (((R.straight_of ci).getD []).length : Int)) ||
        (mx < v && v - mn < (((R.straight_of ci).getD []).length : Int))) := by
  simp only [Row.possible_straight_values_cells]
  rw [hmn, hmx]

theorem scond_insert (mn mx len v u : Int) (hmn : mn ≤ mx)
    (hv : ((mn < v ∧ v < mx) ∨ (v < mn ∧ mx - v < len)) ∨ (mx < v ∧ v - mn < len))
    (hun : u ≠ mn) (hux : u ≠ mx)
    (hu : ((min v mn < u ∧ u < max v mx) ∨
      (u < min v mn ∧ max v mx - u < len)) ∨
      (max v mx < u ∧ u - min v mn < len)) :
    ((mn < u ∧ u < mx) ∨ (u < mn ∧ mx - u < len)) ∨ (mx < u ∧ u - mn < len) := by
  rcases hv with (⟨h1, h2⟩ | ⟨h1, h2⟩) | ⟨h1, h2⟩
  · rw [min_eq_right h1.le, max_eq_right h2.le] at hu
    exact hu
  · rw [min_eq_left (by omega), max_eq_right (by omega)] at hu
    rcases hu with (⟨g1, g2⟩ | ⟨g1, g2⟩) | ⟨g1, g2⟩
    · rcases lt_trichotomy u mn with hc | hc | hc
      · exact Or.inl (Or.inr ⟨hc, by omega⟩)
      · exact absurd hc hun
      · exact Or.inl (Or.inl ⟨hc, g2⟩)
    · exact Or.inl (Or.inr ⟨by omega, by omega⟩)
    · exact Or.inr ⟨g1, by omega⟩
  · rw [min_eq_right (by omega), max_eq_left (by omega)] at hu
    rcases hu with (⟨g1, g2⟩ | ⟨g1, g2⟩) | ⟨g1, g2⟩
    · rcases lt_trichotomy u mx with hc | hc | hc
      · exact Or.inl (Or.inl ⟨g1, hc⟩)
      · exact absurd hc hux
      · exact Or.inr ⟨hc, by omega⟩
    · exact Or.inl (Or.inr ⟨g1, by omega⟩)
    · exact Or.inr ⟨by omega, g2⟩

/-! ## Monotonicity of the candidate engine under solver placements -/

theorem mem_rowIndices_div (i r : Nat) (h : i ∈ rowIndices r) : i / 9 = r := by
  rw [rowIndices, List.mem_map] at h
  obtain ⟨c, hc, rfl⟩ := h
  rw [List.mem_range] at hc
  omega

theorem mem_colIndices_mod (i c : Nat) (hc9 : c < 9) (h : i ∈ colIndices c) : i % 9 = c := by
  rw [colIndices, List.mem_map] at h
  obtain ⟨r, hr, rfl⟩ := h
  rw [List.mem_range] at hr
  omega

theorem missing_none_mono (R : Row) (X Y : List Cell)
    (h : ∀ i ∈ R.row_cells, 0 < (getCell Y i).value →
      (getCell X i).value = (getCell Y i).value) :
    ∀ v, v ∈ R.missing_values_cells none X → v ∈ R.missing_values_cells none Y := by
  intro v hv
  rw [mem_missing_values_cells_none] at hv ⊢
  obtain ⟨hb, hn⟩ := hv
  refine ⟨hb, ?_⟩
  intro i hi hvi
  have h0 : 0 < (getCell Y i).value := by rw [hvi]; omega
  exact hn i hi (by rw [h i hi h0, hvi])

theorem missing_some_mono (R : Row) (X Y : List Cell) (cX cY : List Int)
    (h : ∀ i ∈ R.row_cells, 0 < (getCell Y i).value →
      (getCell X i).value = (getCell Y i).value)
    (hc : ∀ x, x ∈ cX → x ∈ cY) :
    ∀ v, v ∈ R.missing_values_cells (some cX) X →
      v ∈ R.missing_values_cells (some cY) Y := by
  intro v hv
  rw [mem_missing_values_cells_some] at hv ⊢
  obtain ⟨⟨hb, hn⟩, hcand⟩ := hv
  refine ⟨⟨hb, ?_⟩, hc v hcand⟩
  intro i hi hvi
  have h0 : 0 < (getCell Y i).value := by rw [hvi]; omega
  exact hn i hi (by rw [h i hi h0, hvi])

theorem mem_compute_props (b B : List Cell) (j : Nat) (hj : j < 81) (u : Int)
    (hu : u ∈ compute_possible_values j B (compute_rows_columns b)) :
    (1 ≤ u ∧ u ≤ 9) ∧
    (∀ i ∈ rowIndices (j / 9), (getCell B i).value ≠ u) ∧
    (∀ i ∈ colIndices (j % 9), (getCell B i).value ≠ u) := by
  simp only [compute_possible_values] at hu
  rw [compute_rows_columns_getD_row b (j / 9) (by omega),
    compute_rows_columns_getD_col b (j % 9) (by omega)] at hu
  have hu2 : u ∈ (Row.new (colIndices (j % 9)) b).missing_values_cells
      (some ((Row.new (rowIndices (j / 9)) b).missing_values_cells none B)) B := by
    by_cases hw : (getCell B j).is_white = true
    · rw [if_pos hw] at hu
      exact psvc_subset _ _ _ _ u (psvc_subset _ _ _ _ u hu)
    · rw [if_neg hw] at hu
      exact hu
  rw [mem_missing_values_cells_some] at hu2
  obtain ⟨⟨hb, hcol⟩, hrow1⟩ := hu2
  rw [mem_missing_values_cells_none] at hrow1
  exact ⟨hb, hrow1.2, hcol⟩

theorem psvc_step_mono
    (b B : List Cell) (G : List Nat) (hnd : G.Nodup)
    (t : Nat) (ht : t < B.length) (htv : (getCell B t).value ≤ 0)
    (j : Nat) (hjg : j ∈ G) (hjw : (getCell b j).is_white = true)
    (v : Int) (hvpos : 0 < v)
    (hvmem : t ∈ G → (getCell b t).is_white = true →
      ∃ X, v ∈ (Row.new G b).possible_straight_values_cells t X B)
    (cand' cand : List Int) (hsub : ∀ x ∈ cand', x ∈ cand)
    (u : Int) (hugrp : ∀ i ∈ G, (getCell B i).value ≠ u)
    (hu : u ∈ (Row.new G b).possible_straight_values_cells j cand'
      (B.set t { getCell B t with value := v })) :
    u ∈ (Row.new G b).possible_straight_values_cells j cand B := by
  set R := Row.new G b with hR
  set B' := B.set t { getCell B t with value := v } with hB'
  obtain ⟨S, hSmem, hjS⟩ := Row.new_white_mem_straights G b j hjg hjw
  have hso : R.straight_of j = some S := Row.new_straight_of_eq G b hnd S j hSmem hjS
  have hgd : (R.straight_of j).getD [] = S := by rw [hso]; rfl
  by_cases htS : t ∈ S
  · have htG : t ∈ G := Row.new_straights_mem_row G b S hSmem t htS
    have htwb : (getCell b t).is_white = true := Row.new_straights_white G b S hSmem t htS
    obtain ⟨Xv, hvm⟩ := hvmem htG htwb
    have hsot : R.straight_of t = some S := Row.new_straight_of_eq G b hnd S t hSmem htS
    have hgdt : (R.straight_of t).getD [] = S := by rw [hsot]; rfl
    have hSnd : S.Nodup := new_straight_nodup G b hnd S hSmem
    obtain ⟨S1, S2, hSdec, ht1, ht2⟩ := mem_nodup_split S t htS hSnd
    have hBpre : filledValues S1 B' = filledValues S1 B :=
      filledValues_congr _ _ _ (fun i hi => getCell_set_ne B t i _ (fun he => ht1 (he ▸ hi)))
    have hBpost : filledValues S2 B' = filledValues S2 B :=
      filledValues_congr _ _ _ (fun i hi => getCell_set_ne B t i _ (fun he => ht2 (he ▸ hi)))
    have hvt' : getCell B' t = { getCell B t with value := v } := getCell_set_self B t _ ht
    have hFV' : filledValues S B' = filledValues S1 B ++ v :: filledValues S2 B := by
      rw [hSdec, filledValues_append, filledValues_cons, hvt', hBpre, hBpost,
        if_pos (show (0 : Int) < ({ getCell B t with value := v } : Cell).value from hvpos)]
    have hFVb : filledValues S B = filledValues S1 B ++ filledValues S2 B := by
      rw [hSdec, filledValues_append, filledValues_cons, if_neg (by omega)]
    cases hpp : (filledValues S1 B ++ filledValues S2 B).min? with
    | none =>
      have hnil : filledValues S1 B ++ filledValues S2 B = [] := List.min?_eq_none_iff.mp hpp
      obtain ⟨h1, h2⟩ := List.append_eq_nil.mp hnil
      have hFV1 : filledValues S B' = [v] := by
        rw [hFV', h1, h2]
        rfl
      have hFVbnil : filledValues S B = [] := by rw [hFVb]; exact hnil
      rw [psvc_eq_of_none R j cand B (by rw [hgd]; exact hFVbnil)]
      rw [psvc_eq_filter R j cand' B' v v (by rw [hgd, hFV1]; rfl)
        (by rw [hgd, hFV1]; rfl)] at hu
      exact hsub u (List.mem_filter.mp hu).1
    | some mn =>
      have hne2 : filledValues S1 B ++ filledValues S2 B ≠ [] := by
        intro h0
        rw [h0] at hpp
        cases hpp
      cases hqq : (filledValues S1 B ++ filledValues S2 B).max? with
      | none => exact absurd (List.max?_eq_none_iff.mp hqq) hne2
      | some mx =>
        have hmnB : (filledValues S B).min? = some mn := by rw [hFVb]; exact hpp
        have hmxB : (filledValues S B).max? = some mx := by rw [hFVb]; exact hqq
        have hmnB' : (filledValues S B').min? = some (min v mn) := by
          rw [hFV']
          exact int_min?_middle _ _ v mn hpp
        have hmxB' : (filledValues S B').max? = some (max v mx) := by
          rw [hFV']
          exact int_max?_middle _ _ v mx hqq
        rw [psvc_eq_filter R t Xv B mn mx (by rw [hgdt]; exact hmnB)
          (by rw [hgdt]; exact hmxB)] at hvm
        rw [psvc_eq_filter R j cand' B' (min v mn) (max v mx)
          (by rw [hgd]; exact hmnB') (by rw [hgd]; exact hmxB')] at hu
        rw [psvc_eq_filter R j cand B mn mx (by rw [hgd]; exact hmnB)
          (by rw [hgd]; exact hmxB)]
        rw [List.mem_filter] at hu ⊢
        obtain ⟨hu1, hu2⟩ := hu
        refine ⟨hsub u hu1, ?_⟩
        have hmnmx : mn ≤ mx := by
          have h1 := (int_min?_eq_some_iff _ _).mp hmnB
          have h2 := (int_max?_eq_some_iff _ _).mp hmxB
          exact h1.2 mx h2.1
        have hmnmem : mn ∈ filledValues S B := ((int_min?_eq_some_iff _ _).mp hmnB).1
        have hmxmem : mx ∈ filledValues S B := ((int_max?_eq_some_iff _ _).mp hmxB).1
        have hun : u ≠ mn := by
          obtain ⟨i, hiS, hival, hipos⟩ := (mem_filledValues _ _ _).mp hmnmem
          intro he
          exact hugrp i (Row.new_straights_mem_row G b S hSmem i hiS) (by rw [hival, ← he])
        have hux : u ≠ mx := by
          obtain ⟨i, hiS, hival, hipos⟩ := (mem_filledValues _ _ _).mp hmxmem
          intro he
          exact hugrp i (Row.new_straights_mem_row G b S hSmem i hiS) (by rw [hival, ← he])
        have hvprop := (List.mem_filter.mp hvm).2
        simp only [hgd, hgdt, Bool.or_eq_true, Bool.and_eq_true,
          decide_eq_true_eq] at hvprop hu2 ⊢
        exact scond_insert mn mx (S.length : Int) v u hmnmx hvprop hun hux hu2
  · have hFV : filledValues S B' = filledValues S B :=
      filledValues_congr S B' B (fun i hi => getCell_set_ne B t i _ (fun he => htS (he ▸ hi)))
    cases hmn : (filledValues S B).min? with
    | none =>
      have hnil : filledValues S B = [] := List.min?_eq_none_iff.mp hmn
      have hnil' : filledValues S B' = [] := by rw [hFV]; exact hnil
      rw [psvc_eq_of_none R j cand' B' (by rw [hgd]; exact hnil')] at hu
      rw [psvc_eq_of_none R j cand B (by rw [hgd]; exact hnil)]
      exact hsub u hu
    | some mn =>
      have hne : filledValues S B ≠ [] := by
        intro h0
        rw [h0] at hmn
        cases hmn
      cases hmx : (filledValues S B).max? with
      | none => exact absurd (List.max?_eq_none_iff.mp hmx) hne
      | some mx =>
        rw [psvc_eq_filter R j cand' B' mn mx (by rw [hgd, hFV]; exact hmn)
          (by rw [hgd, hFV]; exact hmx)] at hu
        rw [psvc_eq_filter R j cand B mn mx (by rw [hgd]; exact hmn)
          (by rw [hgd]; exact hmx)]
        rw [List.mem_filter] at hu ⊢
        exact ⟨hsub u hu.1, hu.2⟩

theorem compute_one_step_mono
    (b B : List Cell) (h81 : b.length = 81) (hlenB : B.length = b.length)
    (hfields : ∀ k, (getCell B k).is_white = (getCell b k).is_white)
    (t : Nat) (ht81 : t < 81) (htv : (getCell B t).value ≤ 0)
    (v : Int) (hv : v ∈ compute_possible_values t B (compute_rows_columns b))
    (j : Nat) (hj : j < 81) (hjt : j ≠ t)
    (hjw : (getCell b j).is_white = true)
    (u : Int)
    (hu : u ∈ compute_possible_values j
      (B.set t { getCell B t with value := v }) (compute_rows_columns b)) :
    u ∈ compute_possible_values j B (compute_rows_columns b) := by
  set B' := B.set t { getCell B t with value := v } with hB'
  have ht : t < B.length := by omega
  obtain ⟨⟨hv1, hv9⟩, hvrow, hvcol⟩ := mem_compute_props b B t ht81 v hv
  obtain ⟨⟨hu1, hu9⟩, hurow', hucol'⟩ := mem_compute_props b B' j hj u hu
  have hext : ∀ i : Nat, 0 < (getCell B i).value →
      (getCell B' i).value = (getCell B i).value := by
    intro i hi
    have hit : t ≠ i := by
      intro he
      rw [← he] at hi
      omega
    rw [hB', getCell_set_ne B t i _ hit]
  have hucol : ∀ i ∈ colIndices (j % 9), (getCell B i).value ≠ u := by
    intro i hi
    by_cases hit : t = i
    · subst hit
      intro he
      omega
    · have hh := hucol' i hi
      rw [hB', getCell_set_ne B t i _ hit] at hh
      exact hh
  have hwB'j : (getCell B' j).is_white = true := by
    rw [hB', getCell_set_ne B t j _ (fun he => hjt he.symm), hfields]
    exact hjw
  have hwBj : (getCell B j).is_white = true := by
    rw [hfields]
    exact hjw
  simp only [compute_possible_values] at hu ⊢
  rw [compute_rows_columns_getD_row b (j / 9) (by omega),
    compute_rows_columns_getD_col b (j % 9) (by omega)] at hu ⊢
  rw [if_pos hwB'j] at hu
  rw [if_pos hwBj]
  set Rr := Row.new (rowIndices (j / 9)) b with hRr
  set Rc := Row.new (colIndices (j % 9)) b with hRc
  set S1' := Rr.missing_values_cells none B' with hS1'
  set S1 := Rr.missing_values_cells none B with hS1
  set S2' := Rc.missing_values_cells (some S1') B' with hS2'
  set S2 := Rc.missing_values_cells (some S1) B with hS2
  have hmono1 : ∀ x, x ∈ S1' → x ∈ S1 :=
    fun x hx => missing_none_mono Rr B' B (fun i _ h0 => hext i h0) x hx
  have hmono2 : ∀ x, x ∈ S2' → x ∈ S2 :=
    fun x hx => missing_some_mono Rc B' B S1' S1 (fun i _ h0 => hext i h0) hmono1 x hx
  have hvrowmem : t ∈ rowIndices (j / 9) → (getCell b t).is_white = true →
      ∃ X, v ∈ Rr.possible_straight_values_cells t X B := by
    intro htg htw
    have hdiv : t / 9 = j / 9 := mem_rowIndices_div t (j / 9) htg
    have hwt : (getCell B t).is_white = true := by
      rw [hfields]
      exact htw
    have hv2 := hv
    simp only [compute_possible_values] at hv2
    rw [hdiv, compute_rows_columns_getD_row b (j / 9) (by omega), if_pos hwt] at hv2
    exact ⟨_, psvc_subset _ _ _ _ v hv2⟩
  have hvcolmem : t ∈ colIndices (j % 9) → (getCell b t).is_white = true →
      ∃ X, v ∈ Rc.possible_straight_values_cells t X B := by
    intro htg htw
    have hmod : t % 9 = j % 9 := mem_colIndices_mod t (j % 9) (by omega) htg
    have hwt : (getCell B t).is_white = true := by
      rw [hfields]
      exact htw
    have hv2 := hv
    simp only [compute_possible_values] at hv2
    rw [hmod, compute_rows_columns_getD_col b (j % 9) (by omega), if_pos hwt] at hv2
    exact ⟨_, hv2⟩
  have hstep_row : ∀ x ∈ Rr.possible_straight_values_cells j S2' B',
      x ∈ Rr.possible_straight_values_cells j S2 B := by
    intro x hx
    have hxS2' : x ∈ S2' := psvc_subset _ _ _ _ x hx
    have hxchar := hxS2'
    rw [hS2', mem_missing_values_cells_some] at hxchar
    obtain ⟨⟨⟨hx1, hx9⟩, hxcol'⟩, hxS1'⟩ := hxchar
    have hxrowchar := hxS1'
    rw [hS1', mem_missing_values_cells_none] at hxrowchar
    obtain ⟨-, hxrow'⟩ := hxrowchar
    have hxrow : ∀ i ∈ rowIndices (j / 9), (getCell B i).value ≠ x := by
      intro i hi
      by_cases hit : t = i
      · subst hit
        intro he
        omega
      · have hh := hxrow' i hi
        rw [hB', getCell_set_ne B t i _ hit] at hh
        exact hh
    exact psvc_step_mono b B (rowIndices (j / 9)) (rowIndices_nodup _) t ht htv j
      (mem_rowIndices j hj) hjw v (by omega) hvrowmem S2' S2 hmono2 x hxrow hx
  exact psvc_step_mono b B (colIndices (j % 9)) (colIndices_nodup _) t ht htv j
    (mem_colIndices j hj) hjw v (by omega) hvcolmem
    (Rr.possible_straight_values_cells j S2' B')
    (Rr.possible_straight_values_cells j S2 B)
    hstep_row u hucol hu

/-! ## The dead-end invariant of the solver (C3) -/

theorem boardUpTo_congr (t : Nat) (b c1 c2 : List Cell)
    (hl1 : c1.length = b.length) (hl2 : c2.length = b.length)
    (h : ∀ k, k < t → getCell c1 k = getCell c2 k) :
    boardUpTo t b c1 = boardUpTo t b c2 := by
  apply list_eq_of_getCell _ _ (by rw [boardUpTo_length, boardUpTo_length])
  intro k
  rw [getCell_boardUpTo t b c1 hl1 k, getCell_boardUpTo t b c2 hl2 k]
  split
  · exact h k (by omega)
  · rfl

theorem list_getD_mem (l : List Int) (n : Nat) (d : Int) (h : n < l.length) :
    l.getD n d ∈ l := by
  rw [List.getD_eq_getElem?_getD, List.getElem?_eq_getElem h]
  exact List.getElem_mem h

theorem cell_set_value_self (c : Cell) (v : Int) (h : c.value = v) :
    ({ c with value := v } : Cell) = c := by
  cases c
  cases h
  rfl

theorem cell_value_update_update (c : Cell) (w x : Int) :
    ({ { c with value := w } with value := x } : Cell) = { c with value := x } := rfl

theorem candInv_boardUpTo_empty
    (b : List Cell) (j : Nat) (s : SolverState)
    (h81 : b.length = 81) (hj : j < 81) (hjw : (getCell b j).is_white = true)
    (hcj : compute_possible_values j b (compute_rows_columns b) = [])
    (hinv : SolverInv s) (hfr : FrameInv b s)
    (hci : CandInv b j (compute_rows_columns b) s) :
    ∀ t, t ≤ s.possible_values_stack.length →
      compute_possible_values j (boardUpTo t b s.cells) (compute_rows_columns b) = [] := by
  obtain ⟨hfrA, hPE, -⟩ := hfr
  obtain ⟨hclen, hcfields, hcprot⟩ := hPE
  obtain ⟨-, -, hup, hframes, hassign⟩ := hci
  intro t
  induction t with
  | zero =>
    intro hle
    rw [boardUpTo_zero b s.cells hclen]
    exact hcj
  | succ t ih =>
    intro hle
    have ht : t < s.possible_values_stack.length := by omega
    have hIH := ih (by omega)
    rcases Nat.eq_zero_or_pos (s.indices_stack.getD t 0) with hc0 | hcpos
    · have hcell : getCell s.cells t = getCell b t := (hassign t ht).1 hc0
      rw [boardUpTo_succ_eq t b s.cells hclen hcell]
      exact hIH
    · obtain ⟨v, hvmem, hcell⟩ := (hassign t ht).2 hcpos
      have hfne : s.possible_values_stack.getD t [] ≠ [] := by
        intro h0
        rw [h0] at hvmem
        simp at hvmem
      have hframe := (hframes t ht).resolve_left hfne
      have hvcomp : v ∈ compute_possible_values t (boardUpTo t b s.cells)
          (compute_rows_columns b) := by
        rw [← hframe]
        exact hvmem
      have hjt : j ≠ t := by
        intro he
        subst he
        exact hfne (hframe.trans hIH)
      have htw := hfrA t hfne
      have hBt : getCell (boardUpTo t b s.cells) t = getCell b t := by
        rw [getCell_boardUpTo t b s.cells hclen t]
        simp
      have ht81 : t < 81 := by
        have := hinv.stack_le
        omega
      have hset : boardUpTo (t + 1) b s.cells =
          (boardUpTo t b s.cells).set t
            { getCell (boardUpTo t b s.cells) t with value := v } := by
        apply boardUpTo_succ_eq_set t b s.cells hclen (by omega)
        rw [hBt]
        exact hcell
      rw [hset]
      rw [List.eq_nil_iff_forall_not_mem]
      intro u hu
      have hres := compute_one_step_mono b (boardUpTo t b s.cells) h81
        (by rw [boardUpTo_length])
        (by
          intro k
          rw [getCell_boardUpTo t b s.cells hclen k]
          split
          · exact (hcfields k).1
          · rfl)
        t ht81 (by rw [hBt]; exact htw.2) v hvcomp j hj hjt
        (by rw [← hjw]) u hu
      rw [hIH] at hres
      simp at hres

theorem candInv_cell_facts
    (b : List Cell) (j : Nat) (s : SolverState)
    (h81 : b.length = 81) (hj : j < 81) (hjw : (getCell b j).is_white = true)
    (hjv : (getCell b j).value ≤ 0)
    (hcj : compute_possible_values j b (compute_rows_columns b) = [])
    (hinv : SolverInv s) (hfr : FrameInv b s)
    (hci : CandInv b j (compute_rows_columns b) s) :
    compute_possible_values j s.cells (compute_rows_columns b) = [] ∧
    s.possible_values_stack.getD j [] = [] ∧
    (getCell s.cells j).value ≤ 0 ∧
    (getCell s.cells j).is_white = true := by
  have hchain := candInv_boardUpTo_empty b j s h81 hj hjw hcj hinv hfr hci
  obtain ⟨-, hPE, -⟩ := hfr
  obtain ⟨hclen, hcfields, hcprot⟩ := hPE
  obtain ⟨-, -, hup, hframes, hassign⟩ := hci
  have hcells : compute_possible_values j s.cells (compute_rows_columns b) = [] := by
    have hself : boardUpTo s.possible_values_stack.length b s.cells = s.cells :=
      boardUpTo_eq_self _ b s.cells hclen (fun k hk => hup k hk)
    have := hchain s.possible_values_stack.length le_rfl
    rw [hself] at this
    exact this
  have hframej : s.possible_values_stack.getD j [] = [] := by
    by_cases hjL : j < s.possible_values_stack.length
    · rcases hframes j hjL with h0 | h0
      · exact h0
      · rw [h0]
        exact hchain j (by omega)
    · exact list_getD_default _ _ _ (by omega)
  refine ⟨hcells, hframej, ?_, ?_⟩
  · by_cases hjL : j < s.possible_values_stack.length
    · rcases Nat.eq_zero_or_pos (s.indices_stack.getD j 0) with hc0 | hcpos
      · rw [(hassign j hjL).1 hc0]
        exact hjv
      · obtain ⟨v, hvmem, -⟩ := (hassign j hjL).2 hcpos
        rw [hframej] at hvmem
        simp at hvmem
    · rw [hup j (by omega)]
      exact hjv
  · rw [(hcfields j).1]
    exact hjw

theorem solveStep_candInv (b : List Cell) (j : Nat) (s s' : SolverState)
    (h81 : b.length = 81) (hj : j < 81) (hjw : (getCell b j).is_white = true)
    (hjv : (getCell b j).value ≤ 0)
    (hHB : ∀ k, k < b.length →
      (getCell b k).value = -1 ∨ 0 < (getCell b k).value)
    (hcj : compute_possible_values j b (compute_rows_columns b) = [])
    (hinv : SolverInv s) (hfr : FrameInv b s)
    (hci : CandInv b j (compute_rows_columns b) s)
    (h : solveStep (compute_rows_columns b) s = StepResult.running s') :
    CandInv b j (compute_rows_columns b) s' := by
  obtain ⟨hcempty, hframej, hcvj, hcwj⟩ :=
    candInv_cell_facts b j s h81 hj hjw hjv hcj hinv hfr hci
  obtain ⟨hfrA, hPE, -⟩ := hfr
  obtain ⟨hclen, hcfields, hcprot⟩ := hPE
  obtain ⟨hfound, hij, hup, hframes, hassign⟩ := hci
  obtain ⟨hlen, histk, hile, hstle, hcur, hcap, hfnd⟩ := hinv
  rw [solveStep] at h
  by_cases h2 : 2 ≤ s.found_solutions.length
  · rw [if_pos h2] at h
    cases h
  rw [if_neg h2] at h
  by_cases hlt : s.i < s.cells.length
  swap
  · exact absurd (by omega : s.i < s.cells.length) hlt
  rw [if_pos hlt] at h
  by_cases hskip : (¬(getCell s.cells s.i).is_white = true ∨
      0 < (getCell s.cells s.i).value) ∧ s.possible_values_stack.length ≤ s.i
  · rw [if_pos hskip] at h
    cases h
    have hLi : s.possible_values_stack.length = s.i := by omega
    have hlci : s.indices_stack.length = s.i := by omega
    have hij' : s.i ≠ j := by
      intro he
      rcases hskip.1 with hw | hv
      · rw [he] at hw
        exact hw hcwj
      · rw [he] at hv
        omega
    refine ⟨hfound, show s.i + 1 ≤ j by omega, ?_, ?_, ?_⟩
    · intro k hk
      have h3 : (s.possible_values_stack ++ [([] : List Int)]).length ≤ k := hk
      rw [List.length_append] at h3
      exact hup k (by simp at h3; omega)
    · intro k hk
      have h3 : k < (s.possible_values_stack ++ [([] : List Int)]).length := hk
      rw [List.length_append] at h3
      simp only [List.length_singleton] at h3
      by_cases hkL : k < s.possible_values_stack.length
      · have he : (s.possible_values_stack ++ [([] : List Int)]).getD k [] =
            s.possible_values_stack.getD k [] := list_getD_append_lt _ _ _ _ hkL
        show (s.possible_values_stack ++ [([] : List Int)]).getD k [] = [] ∨
          (s.possible_values_stack ++ [([] : List Int)]).getD k [] =
            compute_possible_values k (boardUpTo k b s.cells) (compute_rows_columns b)
        rw [he]
        exact hframes k hkL
      · have hkeq : k = s.possible_values_stack.length := by omega
        left
        show (s.possible_values_stack ++ [([] : List Int)]).getD k [] = []
        rw [hkeq, list_getD_append_len]
    · intro k hk
      have h3 : k < (s.possible_values_stack ++ [([] : List Int)]).length := hk
      rw [List.length_append] at h3
      simp only [List.length_singleton] at h3
      by_cases hkL : k < s.possible_values_stack.length
      · have he1 : (s.possible_values_stack ++ [([] : List Int)]).getD k [] =
            s.possible_values_stack.getD k [] := list_getD_append_lt _ _ _ _ hkL
        have he2 : (s.indices_stack ++ [0]).getD k 0 = s.indices_stack.getD k 0 :=
          list_getD_append_lt _ _ _ _ (by omega)
        constructor
        · intro hc0
          have hc0' : (s.indices_stack ++ [0]).getD k 0 = 0 := hc0
          rw [he2] at hc0'
          exact (hassign k hkL).1 hc0'
        · intro hcpos
          have hcpos2 : 0 < (s.indices_stack ++ [0]).getD k 0 := hcpos
          rw [he2] at hcpos2
          obtain ⟨v, hv1, hv2⟩ := (hassign k hkL).2 hcpos2
          refine ⟨v, ?_, hv2⟩
          show v ∈ (s.possible_values_stack ++ [([] : List Int)]).getD k []
          rw [he1]
          exact hv1
      · have hkeq : k = s.possible_values_stack.length := by omega
        constructor
        · intro hdummy
          exact hup k (by omega)
        · intro hcpos
          have hcpos2 : 0 < (s.indices_stack ++ [0]).getD k 0 := hcpos
          rw [hkeq, ← hlen, list_getD_append_len] at hcpos2
          exact absurd hcpos2 (lt_irrefl 0)
  rw [if_neg hskip] at h
  by_cases hpush : s.possible_values_stack.length ≤ s.i
  · rw [if_pos hpush] at h
    have hLi : s.possible_values_stack.length = s.i := by omega
    have hlci : s.indices_stack.length = s.i := by omega
    set F := compute_possible_values s.i s.cells (compute_rows_columns b) with hF
    rw [solveAssignOrPop, pushFrame_pvs, pushFrame_idx] at h
    have hgf : (s.possible_values_stack ++ [F]).getD s.i [] = F := by
      rw [← hLi, list_getD_append_len]
    have hgc : (s.indices_stack ++ [0]).getD s.i 0 = 0 := by
      rw [← hlci, list_getD_append_len]
    rw [hgf, hgc] at h
    have hBself : boardUpTo s.i b s.cells = s.cells := by
      apply boardUpTo_eq_self _ b s.cells hclen
      intro k hk
      exact hup k (by omega)
    by_cases hc : 0 < F.length
    · rw [if_pos hc] at h
      simp only [pushFrame_cells, pushFrame_i, pushFrame_found] at h
      cases h
      have hij' : s.i ≠ j := by
        intro he
        rw [hF, he, hcempty] at hc
        simp at hc
      have hset : (s.indices_stack ++ [0]).set s.i (0 + 1) = s.indices_stack ++ [1] := by
        rw [← hlci]
        exact list_set_append_len _ _ _
      have hcellsi : getCell s.cells s.i = getCell b s.i := hup s.i (by omega)
      refine ⟨hfound, show s.i + 1 ≤ j by omega, ?_, ?_, ?_⟩
      · intro k hk
        have h3 : (s.possible_values_stack ++ [F]).length ≤ k := hk
        rw [List.length_append] at h3
        simp only [List.length_singleton] at h3
        show getCell (s.cells.set s.i
          { getCell s.cells s.i with value := F.getD 0 0 }) k = getCell b k
        rw [getCell_set_ne _ _ _ _ (by omega : s.i ≠ k)]
        exact hup k (by omega)
      · intro k hk
        have h3 : k < (s.possible_values_stack ++ [F]).length := hk
        rw [List.length_append] at h3
        simp only [List.length_singleton] at h3
        have hBcongr : boardUpTo k b
            (s.cells.set s.i { getCell s.cells s.i with value := F.getD 0 0 }) =
            boardUpTo k b s.cells := by
          apply boardUpTo_congr k b _ _ (by rw [List.length_set]; exact hclen) hclen
          intro m hm
          exact getCell_set_ne _ _ _ _ (by omega : s.i ≠ m)
        by_cases hkL : k < s.possible_values_stack.length
        · have he : (s.possible_values_stack ++ [F]).getD k [] =
              s.possible_values_stack.getD k [] := list_getD_append_lt _ _ _ _ hkL
          show (s.possible_values_stack ++ [F]).getD k [] = [] ∨
            (s.possible_values_stack ++ [F]).getD k [] =
              compute_possible_values k (boardUpTo k b
                (s.cells.set s.i { getCell s.cells s.i with value := F.getD 0 0 }))
                (compute_rows_columns b)
          rw [he, hBcongr]
          exact hframes k hkL
        · have hkeq : k = s.possible_values_stack.length := by omega
          right
          show (s.possible_values_stack ++ [F]).getD k [] =
            compute_possible_values k (boardUpTo k b
              (s.cells.set s.i { getCell s.cells s.i with value := F.getD 0 0 }))
              (compute_rows_columns b)
          rw [hBcongr, hkeq, list_getD_append_len, hLi, hBself]
      · intro k hk
        have h3 : k < (s.possible_values_stack ++ [F]).length := hk
        rw [List.length_append] at h3
        simp only [List.length_singleton] at h3
        by_cases hkL : k < s.possible_values_stack.length
        · have he1 : (s.possible_values_stack ++ [F]).getD k [] =
              s.possible_values_stack.getD k [] := list_getD_append_lt _ _ _ _ hkL
          have he2 : ((s.indices_stack ++ [0]).set s.i (0 + 1)).getD k 0 =
              s.indices_stack.getD k 0 := by
            rw [hset]
            exact list_getD_append_lt _ _ _ _ (by omega)
          have he3 : getCell (s.cells.set s.i
              { getCell s.cells s.i with value := F.getD 0 0 }) k = getCell s.cells k :=
            getCell_set_ne _ _ _ _ (by omega : s.i ≠ k)
          constructor
          · intro hc0
            have hc0' : ((s.indices_stack ++ [0]).set s.i (0 + 1)).getD k 0 = 0 := hc0
            rw [he2] at hc0'
            show getCell (s.cells.set s.i
              { getCell s.cells s.i with value := F.getD 0 0 }) k = getCell b k
            rw [he3]
            exact (hassign k hkL).1 hc0'
          · intro hcpos
            have hcpos2 : 0 < ((s.indices_stack ++ [0]).set s.i (0 + 1)).getD k 0 := hcpos
            rw [he2] at hcpos2
            obtain ⟨v, hv1, hv2⟩ := (hassign k hkL).2 hcpos2
            refine ⟨v, ?_, ?_⟩
            · show v ∈ (s.possible_values_stack ++ [F]).getD k []
              rw [he1]
              exact hv1
            · show getCell (s.cells.set s.i
                { getCell s.cells s.i with value := F.getD 0 0 }) k =
                { getCell b k with value := v }
              rw [he3]
              exact hv2
        · have hkeq : k = s.possible_values_stack.length := by omega
          constructor
          · intro hc0
            have hc0' : ((s.indices_stack ++ [0]).set s.i (0 + 1)).getD k 0 = 0 := hc0
            rw [hset, hkeq, ← hlen, list_getD_append_len] at hc0'
            simp at hc0'
          · intro hdummy
            have hki : k = s.i := by omega
            refine ⟨F.getD 0 0, ?_, ?_⟩
            · show F.getD 0 0 ∈ (s.possible_values_stack ++ [F]).getD k []
              rw [hkeq, list_getD_append_len]
              exact list_getD_mem F 0 0 hc
            · show getCell (s.cells.set s.i
                { getCell s.cells s.i with value := F.getD 0 0 }) k =
                { getCell b k with value := F.getD 0 0 }
              rw [hki, getCell_set_self s.cells s.i _ hlt, hcellsi]
    · rw [if_neg hc] at h
      have hnum : ((s.possible_values_stack ++ [F]).getLast?.getD []).length = 0 := by
        rw [List.getLast?_concat]
        simpa using hc
      rw [hnum] at h
      rw [if_neg (by omega)] at h
      by_cases hi0 : 0 < s.i
      · rw [if_pos hi0] at h
        simp only [pushFrame_cells, pushFrame_i, pushFrame_found] at h
        cases h
        have hdf : (s.possible_values_stack ++ [F]).dropLast = s.possible_values_stack :=
          List.dropLast_concat
        have hdc : (s.indices_stack ++ [0]).dropLast = s.indices_stack :=
          List.dropLast_concat
        refine ⟨hfound, show s.i - 1 ≤ j by omega, ?_, ?_, ?_⟩
        · intro k hk
          have h3 : ((s.possible_values_stack ++ [F]).dropLast).length ≤ k := hk
          rw [hdf] at h3
          exact hup k h3
        · intro k hk
          have h3 : k < ((s.possible_values_stack ++ [F]).dropLast).length := hk
          rw [hdf] at h3
          show ((s.possible_values_stack ++ [F]).dropLast).getD k [] = [] ∨
            ((s.possible_values_stack ++ [F]).dropLast).getD k [] =
              compute_possible_values k (boardUpTo k b s.cells) (compute_rows_columns b)
          rw [hdf]
          exact hframes k h3
        · intro k hk
          have h3 : k < ((s.possible_values_stack ++ [F]).dropLast).length := hk
          rw [hdf] at h3
          constructor
          · intro hc0
            have hc0' : ((s.indices_stack ++ [0]).dropLast).getD k 0 = 0 := hc0
            rw [hdc] at hc0'
            exact (hassign k h3).1 hc0'
          · intro hcpos
            have hcpos2 : 0 < ((s.indices_stack ++ [0]).dropLast).getD k 0 := hcpos
            rw [hdc] at hcpos2
            obtain ⟨v, hv1, hv2⟩ := (hassign k h3).2 hcpos2
            refine ⟨v, ?_, hv2⟩
            show v ∈ ((s.possible_values_stack ++ [F]).dropLast).getD k []
            rw [hdf]
            exact hv1
      · rw [if_neg hi0] at h
        cases h
  · rw [if_neg hpush] at h
    have hLi : s.possible_values_stack.length = s.i + 1 := by omega
    have hlci : s.indices_stack.length = s.i + 1 := by omega
    have hfne : s.possible_values_stack ≠ [] := by
      intro hnil
      rw [hnil] at hLi
      simp at hLi
    have hcne : s.indices_stack ≠ [] := by
      intro hnil
      rw [hnil] at hlci
      simp at hlci
    set f := s.possible_values_stack.getLast hfne with hfdef
    set c := s.indices_stack.getLast hcne with hcdef
    have hfs : s.possible_values_stack = s.possible_values_stack.dropLast ++ [f] :=
      (List.dropLast_append_getLast hfne).symm
    have hcs : s.indices_stack = s.indices_stack.dropLast ++ [c] :=
      (List.dropLast_append_getLast hcne).symm
    have hfsl : s.possible_values_stack.dropLast.length = s.i := by
      rw [List.length_dropLast]
      omega
    have hcsl : s.indices_stack.dropLast.length = s.i := by
      rw [List.length_dropLast]
      omega
    have hgf : s.possible_values_stack.getD s.i [] = f := by
      rw [hfs, ← hfsl, list_getD_append_len]
    have hgc : s.indices_stack.getD s.i 0 = c := by
      rw [hcs, ← hcsl, list_getD_append_len]
    rw [solveAssignOrPop, hgf, hgc] at h
    by_cases hcc : c < f.length
    · rw [if_pos hcc] at h
      cases h
      have hfne2 : f ≠ [] := by
        intro hnil
        rw [hnil] at hcc
        simp at hcc
      have hij' : s.i ≠ j := by
        intro he
        rw [he] at hgf
        rw [hframej] at hgf
        exact hfne2 hgf.symm
      have hset2 : s.indices_stack.set s.i (c + 1) =
          s.indices_stack.dropLast ++ [c + 1] := by
        conv_lhs => rw [hcs]
        rw [← hcsl]
        exact list_set_append_len _ _ _
      have hold := hassign s.i (by omega)
      have hcell_eq : ({ getCell s.cells s.i with value := f.getD c 0 } : Cell) =
          { getCell b s.i with value := f.getD c 0 } := by
        rcases Nat.eq_zero_or_pos (s.indices_stack.getD s.i 0) with hc0 | hcpos
        · rw [hold.1 hc0]
        · obtain ⟨w, hw1, hw2⟩ := hold.2 hcpos
          rw [hw2]
      refine ⟨hfound, show s.i + 1 ≤ j by omega, ?_, ?_, ?_⟩
      · intro k hk
        have hk2 : s.possible_values_stack.length ≤ k := hk
        show getCell (s.cells.set s.i
          { getCell s.cells s.i with value := f.getD c 0 }) k = getCell b k
        rw [getCell_set_ne _ _ _ _ (by omega : s.i ≠ k)]
        exact hup k hk2
      · intro k hk
        have hk2 : k < s.possible_values_stack.length := hk
        have hBcongr : boardUpTo k b
            (s.cells.set s.i { getCell s.cells s.i with value := f.getD c 0 }) =
            boardUpTo k b s.cells := by
          apply boardUpTo_congr k b _ _ (by rw [List.length_set]; exact hclen) hclen
          intro m hm
          exact getCell_set_ne _ _ _ _ (by omega : s.i ≠ m)
        show s.possible_values_stack.getD k [] = [] ∨
          s.possible_values_stack.getD k [] =
            compute_possible_values k (boardUpTo k b
              (s.cells.set s.i { getCell s.cells s.i with value := f.getD c 0 }))
              (compute_rows_columns b)
        rw [hBcongr]
        exact hframes k hk2
      · intro k hk
        have hk2 : k < s.possible_values_stack.length := hk
        by_cases hki : k = s.i
        · constructor
          · intro hc0
            have hc0' : (s.indices_stack.set s.i (c + 1)).getD k 0 = 0 := hc0
            rw [hki, hset2, ← hcsl, list_getD_append_len] at hc0'
            simp at hc0'
          · intro hdummy
            refine ⟨f.getD c 0, ?_, ?_⟩
            · show f.getD c 0 ∈ s.possible_values_stack.getD k []
              rw [hki, hgf]
              exact list_getD_mem f c 0 hcc
            · show getCell (s.cells.set s.i
                { getCell s.cells s.i with value := f.getD c 0 }) k =
                { getCell b k with value := f.getD c 0 }
              rw [hki, getCell_set_self s.cells s.i _ hlt, hcell_eq]
        · have he2 : (s.indices_stack.set s.i (c + 1)).getD k 0 =
              s.indices_stack.getD k 0 :=
            list_getD_set_ne _ _ _ _ _ (fun he => hki he.symm)
          have he3 : getCell (s.cells.set s.i
              { getCell s.cells s.i with value := f.getD c 0 }) k = getCell s.cells k :=
            getCell_set_ne _ _ _ _ (fun he => hki he.symm)
          constructor
          · intro hc0
            have hc0' : (s.indices_stack.set s.i (c + 1)).getD k 0 = 0 := hc0
            rw [he2] at hc0'
            show getCell (s.cells.set s.i
              { getCell s.cells s.i with value := f.getD c 0 }) k = getCell b k
            rw [he3]
            exact (hassign k hk2).1 hc0'
          · intro hcpos
            have hcpos2 : 0 < (s.indices_stack.set s.i (c + 1)).getD k 0 := hcpos
            rw [he2] at hcpos2
            obtain ⟨v, hv1, hv2⟩ := (hassign k hk2).2 hcpos2
            refine ⟨v, hv1, ?_⟩
            show getCell (s.cells.set s.i
              { getCell s.cells s.i with value := f.getD c 0 }) k =
              { getCell b k with value := v }
            rw [he3]
            exact hv2
    · rw [if_neg hcc] at h
      have hnum : (s.possible_values_stack.getLast?.getD []).length = f.length := by
        conv_lhs => rw [hfs]
        rw [List.getLast?_concat]
        rfl
      rw [hnum] at h
      by_cases hnp : 0 < f.length
      · rw [if_pos hnp] at h
        by_cases hi0 : 0 < s.i
        · rw [if_pos hi0] at h
          cases h
          have hfne2 : f ≠ [] := by
            intro hnil
            rw [hnil] at hnp
            simp at hnp
          have hold := hassign s.i (by omega)
          have hcpos : 0 < s.indices_stack.getD s.i 0 := by
            rw [hgc]
            omega
          obtain ⟨w, hw1, hw2⟩ := hold.2 hcpos
          have hbiv : (getCell b s.i).value = -1 := by
            have hwhite := hfrA s.i (by rw [hgf]; exact hfne2)
            rcases hHB s.i (by omega) with h0 | h0
            · exact h0
            · omega
          have hcleari : getCell (s.cells.set s.i
              { getCell s.cells s.i with value := -1 }) s.i = getCell b s.i := by
            rw [getCell_set_self s.cells s.i _ hlt, hw2, cell_value_update_update]
            exact cell_set_value_self _ _ hbiv
          refine ⟨hfound, show s.i - 1 ≤ j by omega, ?_, ?_, ?_⟩
          · intro k hk
            have h3 : (s.possible_values_stack.dropLast).length ≤ k := hk
            rw [List.length_dropLast] at h3
            by_cases hki : k = s.i
            · show getCell (s.cells.set s.i
                { getCell s.cells s.i with value := -1 }) k = getCell b k
              rw [hki]
              exact hcleari
            · show getCell (s.cells.set s.i
                { getCell s.cells s.i with value := -1 }) k = getCell b k
              rw [getCell_set_ne _ _ _ _ (fun he => hki he.symm)]
              exact hup k (by omega)
          · intro k hk
            have h3 : k < (s.possible_values_stack.dropLast).length := hk
            rw [List.length_dropLast] at h3
            have hBcongr : boardUpTo k b
                (s.cells.set s.i { getCell s.cells s.i with value := -1 }) =
                boardUpTo k b s.cells := by
              apply boardUpTo_congr k b _ _ (by rw [List.length_set]; exact hclen) hclen
              intro m hm
              exact getCell_set_ne _ _ _ _ (by omega : s.i ≠ m)
            have he : (s.possible_values_stack.dropLast).getD k [] =
                s.possible_values_stack.getD k [] :=
              list_getD_dropLast_lt _ _ _ (by omega)
            show (s.possible_values_stack.dropLast).getD k [] = [] ∨
              (s.possible_values_stack.dropLast).getD k [] =
                compute_possible_values k (boardUpTo k b
                  (s.cells.set s.i { getCell s.cells s.i with value := -1 }))
                  (compute_rows_columns b)
            rw [he, hBcongr]
            exact hframes k (by omega)
          · intro k hk
            have h3 : k < (s.possible_values_stack.dropLast).length := hk
            rw [List.length_dropLast] at h3
            have he1 : (s.possible_values_stack.dropLast).getD k [] =
                s.possible_values_stack.getD k [] :=
              list_getD_dropLast_lt _ _ _ (by omega)
            have he2 : (s.indices_stack.dropLast).getD k 0 =
                s.indices_stack.getD k 0 :=
              list_getD_dropLast_lt _ _ _ (by omega)
            have he3 : getCell (s.cells.set s.i
                { getCell s.cells s.i with value := -1 }) k = getCell s.cells k :=
              getCell_set_ne _ _ _ _ (by omega : s.i ≠ k)
            constructor
            · intro hc0
              have hc0' : (s.indices_stack.dropLast).getD k 0 = 0 := hc0
              rw [he2] at hc0'
              show getCell (s.cells.set s.i
                { getCell s.cells s.i with value := -1 }) k = getCell b k
              rw [he3]
              exact (hassign k (by omega)).1 hc0'
            · intro hcpos2
              have hcpos3 : 0 < (s.indices_stack.dropLast).getD k 0 := hcpos2
              rw [he2] at hcpos3
              obtain ⟨v, hv1, hv2⟩ := (hassign k (by omega)).2 hcpos3
              refine ⟨v, ?_, ?_⟩
              · show v ∈ (s.possible_values_stack.dropLast).getD k []
                rw [he1]
                exact hv1
              · show getCell (s.cells.set s.i
                  { getCell s.cells s.i with value := -1 }) k =
                  { getCell b k with value := v }
                rw [he3]
                exact hv2
        · rw [if_neg hi0] at h
          cases h
      · rw [if_neg hnp] at h
        by_cases hi0 : 0 < s.i
        · rw [if_pos hi0] at h
          cases h
          have hfnil : f = [] := by
            rcases f with _ | ⟨x, t⟩
            · rfl
            · simp at hnp
          have hold := hassign s.i (by omega)
          have hcelli : getCell s.cells s.i = getCell b s.i := by
            rcases Nat.eq_zero_or_pos (s.indices_stack.getD s.i 0) with hc0 | hcpos
            · exact hold.1 hc0
            · obtain ⟨w, hw1, hdummy⟩ := hold.2 hcpos
              rw [hgf, hfnil] at hw1
              simp at hw1
          refine ⟨hfound, show s.i - 1 ≤ j by omega, ?_, ?_, ?_⟩
          · intro k hk
            have h3 : (s.possible_values_stack.dropLast).length ≤ k := hk
            rw [List.length_dropLast] at h3
            by_cases hki : k = s.i
            · show getCell s.cells k = getCell b k
              rw [hki]
              exact hcelli
            · exact hup k (by omega)
          · intro k hk
            have h3 : k < (s.possible_values_stack.dropLast).length := hk
            rw [List.length_dropLast] at h3
            have he : (s.possible_values_stack.dropLast).getD k [] =
                s.possible_values_stack.getD k [] :=
              list_getD_dropLast_lt _ _ _ (by omega)
            show (s.possible_values_stack.dropLast).getD k [] = [] ∨
              (s.possible_values_stack.dropLast).getD k [] =
                compute_possible_values k (boardUpTo k b s.cells)
                  (compute_rows_columns b)
            rw [he]
            exact hframes k (by omega)
          · intro k hk
            have h3 : k < (s.possible_values_stack.dropLast).length := hk
            rw [List.length_dropLast] at h3
            have he1 : (s.possible_values_stack.dropLast).getD k [] =
                s.possible_values_stack.getD k [] :=
              list_getD_dropLast_lt _ _ _ (by omega)
            have he2 : (s.indices_stack.dropLast).getD k 0 =
                s.indices_stack.getD k 0 :=
              list_getD_dropLast_lt _ _ _ (by omega)
            constructor
            · intro hc0
              have hc0' : (s.indices_stack.dropLast).getD k 0 = 0 := hc0
              rw [he2] at hc0'
              exact (hassign k (by omega)).1 hc0'
            · intro hcpos2
              have hcpos3 : 0 < (s.indices_stack.dropLast).getD k 0 := hcpos2
              rw [he2] at hcpos3
              obtain ⟨v, hv1, hv2⟩ := (hassign k (by omega)).2 hcpos3
              refine ⟨v, ?_, hv2⟩
              show v ∈ (s.possible_values_stack.dropLast).getD k []
              rw [he1]
              exact hv1
        · rw [if_neg hi0] at h
          cases h

theorem solveRun_candInv (b : List Cell) (j : Nat)
    (h81 : b.length = 81) (hj : j < 81) (hjw : (getCell b j).is_white = true)
    (hjv : (getCell b j).value ≤ 0)
    (hHB : ∀ k, k < b.length →
      (getCell b k).value = -1 ∨ 0 < (getCell b k).value)
    (hcj : compute_possible_values j b (compute_rows_columns b) = []) :
    ∀ fuel s r, SolverInv s → FrameInv b s → CandInv b j (compute_rows_columns b) s →
      solveRun (compute_rows_columns b) fuel s = some r →
      r = Str8tsSolution.None := by
  intro fuel
  induction fuel with
  | zero =>
    intro s r hd1 hd2 hd3 hrun
    cases hrun
  | succ fuel ih =>
    intro s r hinv hfr hci hrun
    cases hstep : solveStep (compute_rows_columns b) s with
    | finished res =>
      rw [solveRun, hstep] at hrun
      injection hrun with hres
      subst hres
      obtain ⟨hfound, -, -, -, -⟩ := hci
      rw [solveStep_finished_eq (compute_rows_columns b) s res hstep, hfound]
      rfl
    | running s2 =>
      rw [solveRun, hstep] at hrun
      exact ih s2 r (solveStep_running_spec _ s s2 hinv hstep).1
        (solveStep_frameInv _ b s s2 hinv hfr hstep)
        (solveStep_candInv b j s s2 h81 hj hjw hjv hHB hcj hinv hfr hci hstep) hrun

/-- Claim C3: on a board of the data model (81 cells, every value -1 or a
digit 1..9) holding an empty white cell whose candidate set, computed by the
candidate engine against the input board, is empty, `solve_backtrack` comes
back with `None` (no solution): the solver cannot fill that cell, never
records a solution, and exhausts its search. -/
theorem solve_backtrack_empty_cell_none (cells : List Cell) (j : Nat)
    (h81 : cells.length = 81) (hj : j < 81)
    (hjw : (getCell cells j).is_white = true)
    (hjv : (getCell cells j).value ≤ 0)
    (hHB : ∀ k, k < cells.length →
      (getCell cells k).value = -1 ∨ 0 < (getCell cells k).value)
    (hcj : compute_possible_values j cells (compute_rows_columns cells) = []) :
    solve_backtrack cells = Str8tsSolution.None := by
  have hci0 : CandInv cells j (compute_rows_columns cells) (initState cells) := by
    refine ⟨rfl, Nat.zero_le j, ?_, ?_, ?_⟩
    · intro k hk
      rfl
    · intro k hk
      simp [initState] at hk
    · intro k hk
      simp [initState] at hk
  exact solveRun_candInv cells j h81 hj hjw hjv hHB hcj
    (solverMeasure (initState cells) + 1) (initState cells) (solve_backtrack cells)
    (initState_inv cells) (initState_frameInv cells) hci0 (solve_backtrack_run cells)


/-- Witness for C3: the dead-end board — cell 0 is white and empty while its
row holds 1..8 and its column holds 9 — has an empty candidate set at cell 0,
and the solver reports no solution. -/
theorem solve_backtrack_empty_cell_none_witness :
    (deadEndBoard.length = 81 ∧ (0 : Nat) < 81 ∧
      (getCell deadEndBoard 0).is_white = true ∧
      (getCell deadEndBoard 0).value ≤ 0 ∧
      (∀ k, k < deadEndBoard.length →
        (getCell deadEndBoard k).value = -1 ∨ 0 < (getCell deadEndBoard k).value) ∧
      compute_possible_values 0 deadEndBoard (compute_rows_columns deadEndBoard) = []) ∧
    solve_backtrack deadEndBoard = Str8tsSolution.None :=
  ⟨⟨by decide, by decide, by decide, by decide, by decide, by decide⟩,
   solve_backtrack_empty_cell_none deadEndBoard 0 (by decide) (by decide) (by decide)
     (by decide) (by decide) (by decide)⟩

end Str8ts
